import Mathlib

/-!
# TeamworkGoTests: email-domain counter

A shallow embedding of `pkg/emailvalidator` and `pkg/customerimporter`.

* Go `string` values are Lean `String`s. A Go string may hold bytes that are not
  valid UTF-8; the `regexp` package decodes each such byte as U+FFFD, which is
  in none of the character classes used here, so such strings are rejected by
  `IsValidEmail` and never reach the counting code.
* Go `int` is modelled by `Int`. The counters of `CountEmailDomains` are bounded
  by the number of values read, and the length of a Go slice is itself an `int`,
  so no counter can wrap on a slice-backed source.
* `regexp`, `strings.Split`, `sort.SliceStable`, `encoding/csv`, `encoding/json`
  and `yaml.v3` are library code; they are modelled by their documented
  behaviour, each as far as the program uses it.
-/

namespace TeamworkGoTests

/-! ## Regular expressions (the fragment of RE2 syntax used by the validator) -/

/-- Regular expressions over runes. A character class is a list of inclusive
rune ranges, as in Go's `regexp/syntax`. -/
inductive Regex where
  | fail : Regex
  | eps : Regex
  | cls : List (Char × Char) → Regex
  | cat : Regex → Regex → Regex
  | alt : Regex → Regex → Regex
  | star : Regex → Regex
  deriving Repr

/-- Membership of a rune in a character class given as inclusive ranges. -/
def inClass (rs : List (Char × Char)) (c : Char) : Bool :=
  rs.any fun r => decide (r.1 ≤ c) && decide (c ≤ r.2)

namespace Regex

/-- A literal rune. -/
def lit (c : Char) : Regex := cls [(c, c)]

/-- One or more repetitions: `r+`. -/
def plus (r : Regex) : Regex := cat r (star r)

/-- Zero or one occurrence: `r?`. -/
def opt (r : Regex) : Regex := alt eps r

/-- Exactly `n` repetitions. -/
def times (r : Regex) : Nat → Regex
  | 0 => eps
  | n + 1 => cat r (times r n)

/-- At most `n` repetitions. -/
def upTo (r : Regex) : Nat → Regex
  | 0 => eps
  | n + 1 => opt (cat r (upTo r n))

/-- Counted repetition `r{lo,hi}`: `lo` copies followed by up to `hi - lo` more. -/
def rep (r : Regex) (lo hi : Nat) : Regex := cat (times r lo) (upTo r (hi - lo))

/-- Whether the expression matches the empty string. -/
def nullable : Regex → Bool
  | fail => false
  | eps => true
  | cls _ => false
  | cat a b => a.nullable && b.nullable
  | alt a b => a.nullable || b.nullable
  | star _ => true

/-- Brzozowski derivative of an expression by one rune. -/
def deriv : Regex → Char → Regex
  | fail, _ => fail
  | eps, _ => fail
  | cls rs, c => if inClass rs c then eps else fail
  | cat a b, c =>
    if a.nullable then alt (cat (a.deriv c) b) (b.deriv c) else cat (a.deriv c) b
  | alt a b, c => alt (a.deriv c) (b.deriv c)
  | star a, c => cat (a.deriv c) (star a)

/-- Whether the expression matches the whole input. -/
def matchFull (r : Regex) : List Char → Bool
  | [] => r.nullable
  | c :: cs => (r.deriv c).matchFull cs

/-- The language of an expression: the inputs it matches as a whole. -/
def Matches : Regex → List Char → Prop
  | fail, _ => False
  | eps, s => s = []
  | cls rs, s => ∃ c, s = [c] ∧ inClass rs c = true
  | cat a b, s => ∃ u v, s = u ++ v ∧ Matches a u ∧ Matches b v
  | alt a b, s => Matches a s ∨ Matches b s
  | star a, s => ∃ parts : List (List Char),
      s = parts.flatten ∧ ∀ p ∈ parts, p ≠ [] ∧ Matches a p

end Regex

/-- A compiled pattern: the body together with the `^` and `$` anchors found at
its two ends (without the `m` flag they denote beginning and end of text). -/
structure Regexp where
  anchorStart : Bool
  body : Regex
  anchorEnd : Bool

/-- The class matching every rune. -/
def anyRune : Regex := Regex.cls [(Char.ofNat 0, Char.ofNat 0x10FFFF)]

/-- Model of `(*Regexp).MatchString`: whether the string contains a match of the pattern.
An anchored end must coincide with the end of the text; an unanchored one may
be followed or preceded by anything. -/
def Regexp.MatchString (re : Regexp) (s : String) : Bool :=
  let pre := if re.anchorStart then Regex.eps else Regex.star anyRune
  let post := if re.anchorEnd then Regex.eps else Regex.star anyRune
  (Regex.cat pre (Regex.cat re.body post)).matchFull s.data

/-! ## pkg/emailvalidator -/

/-- The class `[a-z0-9._%+\-]`. -/
def localClass : List (Char × Char) :=
  [('a', 'z'), ('0', '9'), ('.', '.'), ('_', '_'), ('%', '%'), ('+', '+'), ('-', '-')]

/-- The class `[a-z0-9.\-]`. -/
def domainClass : List (Char × Char) :=
  [('a', 'z'), ('0', '9'), ('.', '.'), ('-', '-')]

/-- The class `[a-z]`. -/
def lowerClass : List (Char × Char) := [('a', 'z')]

/-- The pattern compiled in `init`:
`^[a-z0-9._%+\-]+@[a-z0-9.\-]+\.[a-z]{2,4}$`. -/
def emailRegexp : Regexp where
  anchorStart := true
  body :=
    Regex.cat (Regex.plus (Regex.cls localClass))
      (Regex.cat (Regex.lit '@')
        (Regex.cat (Regex.plus (Regex.cls domainClass))
          (Regex.cat (Regex.lit '.') (Regex.rep (Regex.cls lowerClass) 2 4))))
  anchorEnd := true

/-- Go: `func IsValidEmail(email string) bool`. -/
def IsValidEmail (email : String) : Bool := emailRegexp.MatchString email

/-! ## The `strings` package -/

/-- Splitting a rune sequence at every occurrence of a separator rune. -/
def splitRunes (sep : Char) : List Char → List (List Char)
  | [] => [[]]
  | c :: cs =>
    if c = sep then [] :: splitRunes sep cs
    else (c :: (splitRunes sep cs).headD []) :: (splitRunes sep cs).tail

/-- Model of `strings.Split(s, sep)` for a separator of one rune, the only form
the program uses: all substrings of `s` between occurrences of `sep`. -/
def stringsSplit (s : String) (sep : Char) : List String :=
  (splitRunes sep s.data).map String.mk

/-! ## pkg/customerimporter: domains.go -/

/-- Go: `type Domain struct { Name string; Occurences int }`. -/
structure Domain where
  Name : String
  Occurences : Int
  deriving DecidableEq, Repr

/-- Go: `type Domains []Domain`. -/
abbrev Domains := List Domain

/-- A Go `map[string]int`, kept as an association list without repeated keys.
The position of an entry in the list is bookkeeping of the model only: the
program can observe a map's entries only through `range`, see `MapOrder`. -/
abbrev GoMap := List (String × Int)

namespace GoMap

/-- Go: `m[k]` as an expression; a missing key gives the zero value. -/
def get : GoMap → String → Int
  | [], _ => 0
  | (k', v) :: rest, k => if k' = k then v else get rest k

/-- Go: `m[k] = v`. -/
def set : GoMap → String → Int → GoMap
  | [], k, v => [(k, v)]
  | (k', v') :: rest, k, v =>
    if k' = k then (k', v) :: rest else (k', v') :: set rest k v

/-- Go: `m[k]++`. -/
def incr (m : GoMap) (k : String) : GoMap := m.set k (m.get k + 1)

end GoMap

/-- The order in which `range` visits the entries of a map. Go leaves it
unspecified, so it is a parameter: any function that returns the entries of the
map in some order. -/
structure MapOrder where
  range : GoMap → List (String × Int)
  range_perm : ∀ m, (range m).Perm m

/-- The iteration order that visits entries in the order the keys were first stored. -/
def MapOrder.insertion : MapOrder := ⟨fun m => m, fun _ => List.Perm.refl _⟩

/-- The iteration order that visits entries in the reverse of that order. -/
def MapOrder.reversed : MapOrder := ⟨fun m => m.reverse, fun m => List.reverse_perm m⟩

/-- Go: `func MapToDomainSlice(domainCounter map[string]int) Domains`, appending
one `Domain` per entry in `range` order. -/
def MapToDomainSlice (o : MapOrder) (domainCounter : GoMap) : Domains :=
  (o.range domainCounter).foldl
    (fun domainSlice kv => domainSlice ++ [{ Name := kv.1, Occurences := kv.2 }]) []

/-- Insertion of `x`, which stood before every element of the already sorted
list, at the first position where no later element must precede it. -/
def insertStable {α : Type} (less : α → α → Bool) (x : α) : List α → List α
  | [] => [x]
  | y :: ys => if less y x then y :: insertStable less x ys else x :: y :: ys

/-- Model of `sort.SliceStable(d, less)`: a stable sort by `less`. The library
uses insertion sort on blocks followed by in-place stable merges; the result
of a stable sort is determined by `less`, and it is computed here by insertion. -/
def SliceStable {α : Type} (less : α → α → Bool) : List α → List α
  | [] => []
  | x :: xs => insertStable less x (SliceStable less xs)

/-- Go: `func (d Domains) Sort()`, as the new contents of the slice. -/
def Domains.Sort (d : Domains) : Domains :=
  SliceStable (fun a b => decide (a.Occurences > b.Occurences)) d

/-! ## pkg/customerimporter: interview.go -/

/-- Go `error` values the package produces or passes on. -/
inductive GoError where
  | EOF : GoError
  | ErrColumnNotFound (column : String) : GoError
  | ErrReaderNil : GoError
  | ErrWriterIsNil : GoError
  | ErrUnsupportedFormatType (format : String) : GoError
  | other (msg : String) : GoError
  deriving DecidableEq, Repr

/-- Go: `type EmailReader interface { ReadEmail() (string, error) }`. An
implementation is a state together with the method, which returns the pair it
produces and the state it leaves behind, or `none` when the call panics. -/
structure EmailReader (σ : Type) where
  state : σ
  ReadEmail : σ → Option ((String × Option GoError) × σ)

/-- Go: `type mockEmailReader struct { current int; emails []string }`. -/
structure mockEmailReader where
  current : Nat
  emails : List String
  deriving DecidableEq, Repr

/-- Go: `func (r *mockEmailReader) ReadEmail() (string, error)`. -/
def mockEmailReader.ReadEmail (r : mockEmailReader) :
    (String × Option GoError) × mockEmailReader :=
  if r.current ≥ r.emails.length then (("", some GoError.EOF), r)
  else ((r.emails.getD r.current "", none), { r with current := r.current + 1 })

/-- The in-memory source over a list of strings, as the tests build it:
`&mockEmailReader{emails: emails}`. -/
def mockReader (emails : List String) : EmailReader mockEmailReader :=
  { state := { current := 0, emails := emails },
    ReadEmail := fun r => some (mockEmailReader.ReadEmail r) }

/-! ## The csv-backed source -/

/-- Model of `csv.ErrFieldCount`, with which `Read` refuses a record whose
number of fields is not the expected one. -/
def csvErrFieldCount : GoError := GoError.other "wrong number of fields"

/-- What the csv parser makes of one record of the stream: its fields, or the
parse error met in its place. -/
inductive csvItem where
  | record (fields : List String) : csvItem
  | parseError (err : GoError) : csvItem
  deriving DecidableEq, Repr

/-- Model of `*csv.Reader`: the `FieldsPerRecord` setting and what is left of
the stream, given as the results its parser will produce in turn. -/
structure csvReader where
  FieldsPerRecord : Int
  pending : List csvItem
  deriving DecidableEq, Repr

/-- Model of `(*csv.Reader).Read`: the next record, checked against
`FieldsPerRecord` when that is positive and setting it when it is zero;
`io.EOF` when nothing is left. A record of unexpected length is returned along
with `csv.ErrFieldCount`. -/
def csvReader.Read (r : csvReader) : (List String × Option GoError) × csvReader :=
  match r.pending with
  | [] => (([], some GoError.EOF), r)
  | csvItem.parseError err :: rest => (([], some err), { r with pending := rest })
  | csvItem.record record :: rest =>
    if r.FieldsPerRecord > 0 then
      if (record.length : Int) ≠ r.FieldsPerRecord then
        ((record, some csvErrFieldCount), { r with pending := rest })
      else ((record, none), { r with pending := rest })
    else if r.FieldsPerRecord = 0 then
      ((record, none), { FieldsPerRecord := record.length, pending := rest })
    else ((record, none), { r with pending := rest })

/-- Go: `type csvEmailReader struct { reader *csv.Reader; emailColumn int }`. -/
structure csvEmailReader where
  reader : csvReader
  emailColumn : Int
  deriving DecidableEq, Repr

/-- The loop `for i, field := range record` of `NewCSVEmailReader`, from index
`i` on: every field equal to `columnName` overwrites `emailColumn`. -/
def searchColumn (columnName : String) : List String → Nat → Int → Int
  | [], _, emailColumn => emailColumn
  | field :: rest, i, emailColumn =>
    searchColumn columnName rest (i + 1) (if field = columnName then (i : Int) else emailColumn)

/-- Go: `func NewCSVEmailReader(reader io.Reader, columnName string) (EmailReader, error)`.
The stream is given by the results a csv parser produces on it. -/
def NewCSVEmailReader (reader : List csvItem) (columnName : String) :
    Option csvEmailReader × Option GoError :=
  let csvReader : csvReader := { FieldsPerRecord := 0, pending := reader }
  match csvReader.Read with
  | ((_, some err), _) => (none, some err)
  | ((record, none), csvReader) =>
    let emailColumn := searchColumn columnName record 0 (-1)
    if emailColumn = -1 then (none, some (GoError.ErrColumnNotFound columnName))
    else (some { reader := csvReader, emailColumn := emailColumn }, none)

/-- Go: `func (r *csvEmailReader) ReadEmail() (string, error)`; `none` when the
index expression `record[r.emailColumn]` is out of range. -/
def csvEmailReader.ReadEmail (r : csvEmailReader) :
    Option ((String × Option GoError) × csvEmailReader) :=
  match r.reader.Read with
  | ((_, some err), reader) => some (("", some err), { r with reader := reader })
  | ((record, none), reader) =>
    if r.emailColumn < 0 then none
    else
      match record[r.emailColumn.toNat]? with
      | none => none
      | some email => some ((email, none), { r with reader := reader })

/-- A `*csvEmailReader` as an `EmailReader`. -/
def csvEmailReader.toReader (r : csvEmailReader) : EmailReader csvEmailReader :=
  { state := r, ReadEmail := csvEmailReader.ReadEmail }

/-- Go: `type domainCounter struct { reader EmailReader }`. -/
structure domainCounter (σ : Type) where
  reader : EmailReader σ

/-- Go: `func NewDomainCounter(emailReader EmailReader) (DomainCounter, error)`;
`none` is the nil interface value. -/
def NewDomainCounter {σ : Type} (emailReader : Option (EmailReader σ)) :
    Option (domainCounter σ) × Option GoError :=
  match emailReader with
  | none => (none, some GoError.ErrReaderNil)
  | some r => (some { reader := r }, none)

/-- One call of `log.Printf("Error validating email at line %d. %s is not a
valid email address", i, email)`, kept as its two arguments. -/
structure Diagnostic where
  line : Int
  email : String
  deriving DecidableEq, Repr

/-- How a call of `CountEmailDomains` ends: it returns its pair of results
(`none` is nil), or it panics, in its own index expression or inside the reader. -/
inductive Completion where
  | returned (domains : Option Domains) (err : Option GoError) : Completion
  | panicked : Completion
  deriving DecidableEq, Repr

/-- Everything observable after a call: how it ended, the diagnostics logged,
and the state the reader was left in. -/
structure Outcome (σ : Type) where
  completion : Completion
  log : List Diagnostic
  reader : σ
  deriving DecidableEq

/-- How the `for i := 2; ; i++` loop of `CountEmailDomains` is left. -/
inductive LoopExit where
  | done (domainCounter : GoMap) : LoopExit
  | failed (err : GoError) : LoopExit
  | panicked : LoopExit
  deriving DecidableEq, Repr

/-- The loop of `CountEmailDomains`, one iteration per unit of fuel; `none`
when the fuel runs out before the loop is left. -/
def countLoop {σ : Type} (ReadEmail : σ → Option ((String × Option GoError) × σ)) :
    Nat → σ → Int → GoMap → List Diagnostic → Option (LoopExit × List Diagnostic × σ)
  | 0, _, _, _, _ => none
  | fuel + 1, st, i, domainCounter, log =>
    match ReadEmail st with
    | none => some (LoopExit.panicked, log, st)
    | some ((_, some err), st') =>
      if err = GoError.EOF then some (LoopExit.done domainCounter, log, st')
      else some (LoopExit.failed err, log, st')
    | some ((email, none), st') =>
      if !IsValidEmail email then
        countLoop ReadEmail fuel st' (i + 1) domainCounter (log ++ [⟨i, email⟩])
      else
        match (stringsSplit email '@')[1]? with
        | none => some (LoopExit.panicked, log, st')
        | some domain =>
          countLoop ReadEmail fuel st' (i + 1) (domainCounter.incr domain) log

/-- Go: `func (c *domainCounter) CountEmailDomains() (Domains, error)`, with the
map iteration order `o` and a bound `fuel` on the number of loop iterations. -/
def CountEmailDomains {σ : Type} (o : MapOrder) (fuel : Nat) (c : domainCounter σ) :
    Option (Outcome σ) :=
  match countLoop c.reader.ReadEmail fuel c.reader.state 2 [] [] with
  | none => none
  | some (LoopExit.failed err, log, st) =>
    some { completion := Completion.returned none (some err), log := log, reader := st }
  | some (LoopExit.panicked, log, st) =>
    some { completion := Completion.panicked, log := log, reader := st }
  | some (LoopExit.done domainCounter, log, st) =>
    let sortedDomains := (MapToDomainSlice o domainCounter).Sort
    some { completion := Completion.returned (some sortedDomains) none, log := log, reader := st }

/-- How `CountEmailDomains` ends on the in-memory source holding `emails`, as
`TestDomainCounter_CountEmailDomains` runs it; `none` when `fuel` is too small.
The loop needs one iteration per string and one more to meet `io.EOF`, so the
theorems below take `emails.length + 1 + k` for the fuel, with `k` arbitrary. -/
def countMock (o : MapOrder) (fuel : Nat) (emails : List String) : Option Completion :=
  (CountEmailDomains o fuel { reader := mockReader emails }).map Outcome.completion

/-! ## pkg/customerimporter: domains.go, the writers -/

/-- Go: `const YAML formatType = "yaml"`. -/
def YAML : String := "yaml"

/-- Go: `const JSON formatType = "json"`. -/
def JSON : String := "json"

/-- Go: `func IsValidFormatType(format string) bool`. -/
def IsValidFormatType (format : String) : Bool :=
  if format = YAML || format = JSON then true else false

/-- Model of a non-nil `io.Writer`: the text it has accepted so far, and, for a
sink that refuses every write, the message of the error it answers with (an
error of its own, not one of this package). -/
structure Writer where
  written : String
  failure : Option String
  deriving DecidableEq, Repr

/-- Model of `Write`: the sink appends the text, or refuses it. -/
def Writer.Write (w : Writer) (p : List Char) : Option String × Writer :=
  match w.failure with
  | some msg => (some msg, w)
  | none => (none, { w with written := w.written ++ String.mk p })

/-- The decimal digit of a number below ten. -/
def digitChar (d : Nat) : Char := Char.ofNat (48 + d)

/-- The decimal digits of `n` put in front of `acc`; `fuel` bounds their number. -/
def decimalAux : Nat → Nat → List Char → List Char
  | 0, _, acc => acc
  | fuel + 1, n, acc =>
    if n < 10 then digitChar n :: acc
    else decimalAux fuel (n / 10) (digitChar (n % 10) :: acc)

/-- Model of `strconv.FormatInt(n, 10)`, which both encoders use for an `int`. -/
def decimal (n : Int) : List Char :=
  if n < 0 then '-' :: decimalAux (n.natAbs + 1) n.natAbs []
  else decimalAux (n.natAbs + 1) n.natAbs []

/-- A hexadecimal digit, in lower case. -/
def hexDigit (d : Nat) : Char := if d < 10 then Char.ofNat (48 + d) else Char.ofNat (87 + d)

/-- Whether `encoding/json` writes the rune as `\u` and four hexadecimal
digits: the control characters without a short escape, the characters `<`, `>`
and `&` (the encoder of `json.NewEncoder` escapes HTML), and U+2028, U+2029. -/
def jsonHexEscaped (c : Char) : Bool :=
  decide (c.toNat < 32) || c == '<' || c == '>' || c == '&' ||
    decide (c.toNat = 0x2028) || decide (c.toNat = 0x2029)

/-- Model of how `encoding/json` writes one rune of a string. (From Go 1.22 on
U+0008 and U+000C are written `\b` and `\f`; `parseJSONString` reads both forms.) -/
def jsonEscapeRune (c : Char) : List Char :=
  if c = '"' then ['\\', '"']
  else if c = '\\' then ['\\', '\\']
  else if c = '\n' then ['\\', 'n']
  else if c = '\r' then ['\\', 'r']
  else if c = '\t' then ['\\', 't']
  else if jsonHexEscaped c then
    ['\\', 'u', hexDigit (c.toNat / 4096 % 16), hexDigit (c.toNat / 256 % 16),
      hexDigit (c.toNat / 16 % 16), hexDigit (c.toNat % 16)]
  else [c]

/-- Model of how `encoding/json` writes a string. -/
def jsonString (s : String) : List Char :=
  '"' :: ((s.data.map jsonEscapeRune).flatten ++ ['"'])

/-- The text before the name in the encoding of a `Domain`. -/
def jsonNameKey : List Char := "\x7b\"Name\":".data

/-- The text between the name and the count in the encoding of a `Domain`. -/
def jsonCountKey : List Char := ",\"Occurences\":".data

/-- Model of how `encoding/json` writes a `Domain`: an object with the exported
fields in declaration order under their Go names. -/
def jsonDomain (r : Domain) : List Char :=
  jsonNameKey ++ jsonString r.Name ++ jsonCountKey ++ decimal r.Occurences ++ ['\x7d']

/-- The encodings of the records, a comma before each but the first. -/
def jsonElements : List Domain → List Char
  | [] => []
  | [r] => jsonDomain r
  | r :: rest => jsonDomain r ++ ',' :: jsonElements rest

/-- Model of what `json.NewEncoder(w).Encode(d)` writes for a non-nil slice: the
compact array and a newline. -/
def jsonText (d : Domains) : List Char := '[' :: (jsonElements d ++ [']', '\n'])

/-- Go: `func (d *Domains) writeJSON(writer io.Writer) error`, with the sink
after the call. The encoder hands its text to the sink in one `Write` and
returns the error of the sink as it is. -/
def Domains.writeJSON (d : Domains) (writer : Writer) : Option GoError × Writer :=
  match writer.Write (jsonText d) with
  | (some msg, w) => (some (GoError.other msg), w)
  | (none, w) => (none, w)

/-- Whether a string begins with the three runes of a YAML document marker,
`---` or `...`. -/
def yamlDocumentMarker (s : String) : Bool :=
  match s.data with
  | a :: b :: c :: _ => (a == '-' && b == '-' && c == '-') || (a == '.' && b == '.' && c == '.')
  | _ => false

/-- Model of how `yaml.v3` writes a string scalar as a value of a block mapping,
for strings that are domains of accepted addresses (runes of `[a-z0-9.-]` ending
in a dot and two to four letters). Of these, `-.inf` would be read back as a
float and is written in double quotes; those that begin with a document marker
may not stand as plain scalars and are written in single quotes; all others are
written plain. Strings outside that set fall under further rules of the
library, which are not modelled. -/
def yamlString (s : String) : List Char :=
  if s = "-.inf" then '"' :: (s.data ++ ['"'])
  else if yamlDocumentMarker s then '\'' :: (s.data ++ ['\''])
  else s.data

/-- Model of how `yaml.v3` writes a `Domain` as an item of a block sequence: the
fields in declaration order under their names in lower case, the second
indented by two blanks. -/
def yamlDomain (r : Domain) : List Char :=
  "- name: ".data ++ yamlString r.Name ++ "\n  occurences: ".data ++ decimal r.Occurences ++
    ['\n']

/-- Model of what `yaml.NewEncoder(w).Encode(d)` writes for a slice: one item per
record, or the flow sequence `[]` when there is none. -/
def yamlText (d : Domains) : List Char :=
  match d with
  | [] => "[]\n".data
  | _ => (d.map yamlDomain).flatten

/-- Go: `func (d *Domains) writeYAML(writer io.Writer) error`, with the sink
after the call. The encoder reports a refusal of the sink as an error of its
own that quotes the message. -/
def Domains.writeYAML (d : Domains) (writer : Writer) : Option GoError × Writer :=
  match writer.Write (yamlText d) with
  | (some msg, w) => (some (GoError.other ("yaml: write error: " ++ msg)), w)
  | (none, w) => (none, w)

/-- Go: `func (d *Domains) WriteTo(writer io.Writer, format string) error`, with
the sink after the call; `none` is the nil interface value. The receiver is a
non-nil slice, as every report returned without an error is. -/
def Domains.WriteTo (d : Domains) (writer : Option Writer) (format : String) :
    Option GoError × Option Writer :=
  match writer with
  | none => (some GoError.ErrWriterIsNil, none)
  | some w =>
    if format = YAML then ((d.writeYAML w).1, some (d.writeYAML w).2)
    else if format = JSON then ((d.writeJSON w).1, some (d.writeJSON w).2)
    else (some (GoError.ErrUnsupportedFormatType format), some w)

/-! ## Reading the JSON text back -/

/-- Whether a rune is a decimal digit. -/
def isDigitRune (c : Char) : Bool := decide ('0' ≤ c) && decide (c ≤ '9')

/-- The value of a hexadecimal digit. -/
def hexValue (c : Char) : Option Nat :=
  if '0' ≤ c ∧ c ≤ '9' then some (c.toNat - 48)
  else if 'a' ≤ c ∧ c ≤ 'f' then some (c.toNat - 87)
  else if 'A' ≤ c ∧ c ≤ 'F' then some (c.toNat - 55)
  else none

/-- The rune a short escape `\e` of a JSON string stands for. -/
def jsonUnescape (e : Char) : Option Char :=
  if e = '"' then some '"'
  else if e = '\\' then some '\\'
  else if e = '/' then some '/'
  else if e = 'b' then some (Char.ofNat 8)
  else if e = 'f' then some (Char.ofNat 12)
  else if e = 'n' then some '\n'
  else if e = 'r' then some '\r'
  else if e = 't' then some '\t'
  else none

/-- Model of how `encoding/json` reads a string, from behind its opening quote:
the string and what follows its closing quote. `acc` holds the runes read so
far, last first. Raw control characters are refused, and so are `\u` escapes of
surrogates, whose pairing is not modelled. -/
def parseJSONString : List Char → List Char → Option (String × List Char)
  | [], _ => none
  | c :: rest, acc =>
    if c = '"' then some (String.mk acc.reverse, rest)
    else if c = '\\' then
      match rest with
      | [] => none
      | e :: rest₁ =>
        if e = 'u' then
          match rest₁ with
          | h₃ :: h₂ :: h₁ :: h₀ :: rest₂ =>
            match hexValue h₃, hexValue h₂, hexValue h₁, hexValue h₀ with
            | some a, some b, some c, some d =>
              if 0xD800 ≤ ((a * 16 + b) * 16 + c) * 16 + d ∧
                  ((a * 16 + b) * 16 + c) * 16 + d < 0xE000 then none
              else parseJSONString rest₂ (Char.ofNat (((a * 16 + b) * 16 + c) * 16 + d) :: acc)
            | _, _, _, _ => none
          | _ => none
        else
          match jsonUnescape e with
          | some x => parseJSONString rest₁ (x :: acc)
          | none => none
    else if c.toNat < 32 then none
    else parseJSONString rest (c :: acc)

/-- The number written by the leading digits of the input, continued from
`acc`, and what follows them. -/
def parseDigits : Nat → List Char → Nat × List Char
  | acc, [] => (acc, [])
  | acc, c :: cs =>
    if isDigitRune c then parseDigits (acc * 10 + (c.toNat - 48)) cs else (acc, c :: cs)

/-- A natural number in decimal, of one digit at least. -/
def parseJSONNat (input : List Char) : Option (Nat × List Char) :=
  match input with
  | [] => none
  | c :: _ => if isDigitRune c then some (parseDigits 0 input) else none

/-- Model of how `encoding/json` reads an integer into an `int`. -/
def parseJSONInt (input : List Char) : Option (Int × List Char) :=
  match input with
  | [] => none
  | c :: cs =>
    if c = '-' then
      match parseJSONNat cs with
      | some (n, rest) => some (-(n : Int), rest)
      | none => none
    else
      match parseJSONNat input with
      | some (n, rest) => some ((n : Int), rest)
      | none => none

/-- The input behind the text `lit`, when it begins with it. -/
def expect : List Char → List Char → Option (List Char)
  | [], input => some input
  | _ :: _, [] => none
  | c :: cs, x :: xs => if c = x then expect cs xs else none

/-- One object `\x7b"Name":...,"Occurences":...\x7d` read as a `Domain`. -/
def parseJSONDomain (input : List Char) : Option (Domain × List Char) :=
  match expect (jsonNameKey ++ ['"']) input with
  | none => none
  | some r₁ =>
    match parseJSONString r₁ [] with
    | none => none
    | some (name, r₂) =>
      match expect jsonCountKey r₂ with
      | none => none
      | some r₃ =>
        match parseJSONInt r₃ with
        | none => none
        | some (n, r₄) =>
          match expect ['\x7d'] r₄ with
          | none => none
          | some r₅ => some ({ Name := name, Occurences := n }, r₅)

/-- Objects separated by commas, one at least; `fuel` bounds their number. -/
def parseJSONElements : Nat → List Char → Option (Domains × List Char)
  | 0, _ => none
  | fuel + 1, input =>
    match parseJSONDomain input with
    | none => none
    | some (r, rest) =>
      match rest with
      | [] => some ([r], rest)
      | c :: rest' =>
        if c = ',' then
          match parseJSONElements fuel rest' with
          | some (rs, rest'') => some (r :: rs, rest'')
          | none => none
        else some ([r], rest)

/-- Model of `json.Unmarshal` into a `Domains`, for compact texts with the two
keys in the order of the fields, as the encoder writes them: the array, with
or without the newline that ends it. -/
def parseJSON (text : String) : Option Domains :=
  match expect ['['] text.data with
  | none => none
  | some body =>
    if body = [']', '\n'] ∨ body = [']'] then some []
    else
      match parseJSONElements body.length body with
      | none => none
      | some (rs, rest) => if rest = [']', '\n'] ∨ rest = [']'] then some rs else none

/-! ## The grammar of section 4.2, in the words of the specification -/

/-- A lowercase letter `a-z`. -/
def isLowerLetter (c : Char) : Prop := 'a' ≤ c ∧ c ≤ 'z'

/-- A decimal digit `0-9`. -/
def isDecDigit (c : Char) : Prop := '0' ≤ c ∧ c ≤ '9'

/-- An uppercase letter `A-Z`. -/
def isUpperLetter (c : Char) : Prop := 'A' ≤ c ∧ c ≤ 'Z'

/-- A character allowed in the local part: one of `[a-z0-9._%+-]`. -/
def isLocalChar (c : Char) : Prop :=
  isLowerLetter c ∨ isDecDigit c ∨ c = '.' ∨ c = '_' ∨ c = '%' ∨ c = '+' ∨ c = '-'

/-- A character allowed in the domain part: one of `[a-z0-9.-]`. -/
def isDomainChar (c : Char) : Prop :=
  isLowerLetter c ∨ isDecDigit c ∨ c = '.' ∨ c = '-'

/-- The shape `L ++ "@" ++ D ++ "." ++ T` of section 4.2 for the whole string:
`L` non-empty over the local characters, `D` non-empty over the domain
characters, `T` two to four lowercase letters. -/
def EmailShape (s : String) : Prop :=
  ∃ L D T : String, s = L ++ "@" ++ D ++ "." ++ T ∧
    L ≠ "" ∧ (∀ c ∈ L.data, isLocalChar c) ∧
    D ≠ "" ∧ (∀ c ∈ D.data, isDomainChar c) ∧
    (T.length = 2 ∨ T.length = 3 ∨ T.length = 4) ∧ (∀ c ∈ T.data, isLowerLetter c)

/-- The domain of an address in the words of the glossary: the substring after
the `@` sign (the first one, should there be several). -/
def domainOf (email : String) : String :=
  String.mk ((email.data.dropWhile fun c => c != '@').drop 1)

/-- The number of strings of the list that the validator accepts and whose
domain is `d`. -/
def validWithDomain (emails : List String) (d : String) : Nat :=
  emails.countP fun e => IsValidEmail e && decide (domainOf e = d)

/-- The domains of the accepted strings of the list, in input order. -/
def domainsSeen (emails : List String) : List String :=
  (emails.filter IsValidEmail).map domainOf

/-- Ties follow first-encountered order: of two records of the report with
equal counts, the one whose domain is met first in the input stands first. -/
def TiesInFirstSeenOrder (emails : List String) (report : Domains) : Prop :=
  ∀ r₁ ∈ report, ∀ r₂ ∈ report, r₁.Occurences = r₂.Occurences →
    (domainsSeen emails).indexOf r₁.Name < (domainsSeen emails).indexOf r₂.Name →
    report.indexOf r₁ < report.indexOf r₂

/-! ## The two output formats, in the words of section 6 -/

/-- The names of the report are domains of addresses the validator accepts. -/
def NamesOfValidEmails (d : Domains) : Prop :=
  ∀ r ∈ d, ∃ e : String, IsValidEmail e = true ∧ r.Name = domainOf e

/-- One record in the object notation: the keys `Name` and `Occurences`, in
that order, the name between quotes as it is. -/
def claimedJSONRecord (r : Domain) : List Char :=
  "\x7b\"Name\":\"".data ++ r.Name.data ++ "\",\"Occurences\":".data ++
    decimal r.Occurences ++ "\x7d".data

/-- The object notation of a report: the records joined by commas between
brackets, and a newline. -/
def claimedJSONText (d : Domains) : List Char :=
  "[".data ++ List.intercalate ",".data (d.map claimedJSONRecord) ++ "]".data ++ "\n".data

/-- One record in the markup: the name as it is behind `- name: `, the count on
the next line behind two blanks and `occurences: `. -/
def claimedYAMLBlock (r : Domain) : List Char :=
  "- name: ".data ++ r.Name.data ++ "\n  occurences: ".data ++ decimal r.Occurences ++
    "\n".data

/-- The markup of a report: its blocks in report order. -/
def claimedYAMLText (d : Domains) : List Char := (d.map claimedYAMLBlock).flatten

/-- A name the markup shows as it is: not `-.inf`, and not begun by `---` or `...`. -/
def yamlPlainName (s : String) : Bool := !decide (s = "-.inf") && !yamlDocumentMarker s

/-! ## Sources in general -/

/-- The source, called from state `st`, returns the values `vals` one after the
other without an error, and is then in the state given. -/
def afterReads {σ : Type} (ReadEmail : σ → Option ((String × Option GoError) × σ)) :
    σ → List String → Option σ
  | st, [] => some st
  | st, v :: vs =>
    match ReadEmail st with
    | some ((email, none), st') => if email = v then afterReads ReadEmail st' vs else none
    | _ => none

/-- A source for experiments: it serves the results of a script in turn, then
`io.EOF`, and counts the calls made to it. -/
structure scriptReader where
  calls : Nat
  script : List (String × Option GoError)
  deriving DecidableEq, Repr

/-- The `ReadEmail` of a scripted source. -/
def scriptReader.ReadEmail (r : scriptReader) :
    Option ((String × Option GoError) × scriptReader) :=
  match r.script with
  | [] => some (("", some GoError.EOF), { r with calls := r.calls + 1 })
  | x :: rest => some (x, { calls := r.calls + 1, script := rest })

/-- The scripted source before its first call. -/
def scriptSource (script : List (String × Option GoError)) : EmailReader scriptReader :=
  { state := { calls := 0, script := script }, ReadEmail := scriptReader.ReadEmail }

/-- The diagnostics section 4.3 asks for: one for each rejected value, in input
order, carrying the value and the row index `p + 1`, where `p` is the 1-based
position of the value among all values read (`n` values came before `vals`). -/
def expectedDiagnosticsFrom (n : Nat) (vals : List String) : List Diagnostic :=
  (vals.enumFrom n).filterMap fun x =>
    if IsValidEmail x.2 then none else some { line := ((x.1 + 1 : Nat) : Int) + 1, email := x.2 }

/-- The diagnostics expected for a whole input. -/
def expectedDiagnostics (vals : List String) : List Diagnostic := expectedDiagnosticsFrom 0 vals

/-! ## Closed forms of the counting loop, used in the proofs -/

/-- The keys of a map. -/
def GoMap.keys (m : GoMap) : List String := m.map Prod.fst

/-- The sum of the values of a map. -/
def GoMap.total (m : GoMap) : Int := (m.map Prod.snd).sum

/-- The invariant of the counting map: no key twice, and every stored count at
least one. -/
def GoMap.Counted (m : GoMap) : Prop := m.keys.Nodup ∧ ∀ k ∈ m.keys, m.get k ≥ 1

/-- What one loop iteration does to the map on reading `email`. -/
def tallyStep (m : GoMap) (email : String) : GoMap :=
  if IsValidEmail email then m.incr (domainOf email) else m

/-- The map after the loop has read all of `emails`, starting from `m`. -/
def tallyFrom (m : GoMap) (emails : List String) : GoMap := emails.foldl tallyStep m

/-- The diagnostics the loop logs on reading `emails` when its index starts at `i`. -/
def diagnosticsFrom : Int → List String → List Diagnostic
  | _, [] => []
  | i, e :: es =>
    if IsValidEmail e then diagnosticsFrom (i + 1) es else ⟨i, e⟩ :: diagnosticsFrom (i + 1) es

/-! ## The matcher computes the language -/

namespace Regex

theorem nullable_iff (r : Regex) : r.nullable = true ↔ Matches r [] := by
  induction r with
  | fail => simp [nullable, Matches]
  | eps => simp [nullable, Matches]
  | cls rs => simp [nullable, Matches]
  | cat a b iha ihb =>
    simp only [nullable, Matches, Bool.and_eq_true, iha, ihb]
    constructor
    · rintro ⟨ha, hb⟩
      exact ⟨[], [], rfl, ha, hb⟩
    · rintro ⟨u, v, huv, ha, hb⟩
      have h := List.append_eq_nil.mp huv.symm
      rw [h.1] at ha
      rw [h.2] at hb
      exact ⟨ha, hb⟩
  | alt a b iha ihb => simp [nullable, Matches, iha, ihb]
  | star a _ =>
    simp only [nullable, Matches, true_iff]
    exact ⟨[], rfl, by simp⟩

theorem matches_deriv (r : Regex) (c : Char) :
    ∀ s, Matches (r.deriv c) s ↔ Matches r (c :: s) := by
  induction r with
  | fail => intro s; simp [deriv, Matches]
  | eps => intro s; simp [deriv, Matches]
  | cls rs =>
    intro s
    by_cases h : inClass rs c = true
    · simp only [deriv, h, if_true, Matches]
      constructor
      · rintro rfl
        exact ⟨c, rfl, h⟩
      · rintro ⟨c', hc, _⟩
        simp at hc
        exact hc.2
    · simp only [deriv, h, Matches, false_iff]
      rintro ⟨c', hc, hin⟩
      simp at hc
      rw [← hc.1] at hin
      exact h hin
  | cat a b iha ihb =>
    intro s
    have key : Matches (cat a b) (c :: s) ↔
        (∃ u v, s = u ++ v ∧ Matches a (c :: u) ∧ Matches b v) ∨
          (Matches a [] ∧ Matches b (c :: s)) := by
      simp only [Matches]
      constructor
      · rintro ⟨u, v, huv, ha, hb⟩
        cases u with
        | nil =>
          right
          simp at huv
          rw [← huv] at hb
          exact ⟨ha, hb⟩
        | cons x u =>
          left
          simp at huv
          obtain ⟨rfl, rfl⟩ := huv
          exact ⟨u, v, rfl, ha, hb⟩
      · rintro (⟨u, v, rfl, ha, hb⟩ | ⟨ha, hb⟩)
        · exact ⟨c :: u, v, rfl, ha, hb⟩
        · exact ⟨[], c :: s, rfl, ha, hb⟩
    rw [key]
    by_cases hn : a.nullable = true
    · simp only [deriv, hn, if_true, Matches, iha, ihb]
      have := (nullable_iff a).mp hn
      simp [this]
    · simp only [deriv, hn, Matches, iha]
      have : ¬ Matches a [] := fun h => hn ((nullable_iff a).mpr h)
      simp [this]
  | alt a b iha ihb => intro s; simp [deriv, Matches, iha, ihb]
  | star a iha =>
    intro s
    simp only [deriv, Matches, iha]
    constructor
    · rintro ⟨u, v, rfl, ha, parts, rfl, hparts⟩
      refine ⟨(c :: u) :: parts, by simp, ?_⟩
      intro p hp
      rcases List.mem_cons.mp hp with rfl | hp
      · exact ⟨by simp, ha⟩
      · exact hparts p hp
    · rintro ⟨parts, hs, hparts⟩
      cases parts with
      | nil => simp at hs
      | cons p ps =>
        have hp := hparts p (List.mem_cons_self _ _)
        cases p with
        | nil => exact absurd rfl hp.1
        | cons x u =>
          simp at hs
          obtain ⟨rfl, rfl⟩ := hs
          exact ⟨u, ps.flatten, rfl, hp.2, ps, rfl,
            fun q hq => hparts q (List.mem_cons_of_mem _ hq)⟩

theorem matchFull_iff (r : Regex) (s : List Char) : r.matchFull s = true ↔ Matches r s := by
  induction s generalizing r with
  | nil => simpa [matchFull] using nullable_iff r
  | cons c cs ih => simp [matchFull, ih, matches_deriv]

end Regex

/-! ## The validator -/

theorem inClass_lowerClass (c : Char) : inClass lowerClass c = true ↔ isLowerLetter c := by
  simp [inClass, lowerClass, isLowerLetter]

theorem char_eq_iff_le (a c : Char) : c = a ↔ a ≤ c ∧ c ≤ a :=
  ⟨fun h => by rw [h]; exact ⟨le_refl _, le_refl _⟩, fun h => le_antisymm h.2 h.1⟩

theorem inClass_localClass (c : Char) : inClass localClass c = true ↔ isLocalChar c := by
  simp only [inClass, localClass, List.any_cons, List.any_nil, Bool.or_eq_true,
    Bool.and_eq_true, decide_eq_true_eq, Bool.or_false, isLocalChar, isLowerLetter, isDecDigit,
    char_eq_iff_le]

theorem inClass_domainClass (c : Char) : inClass domainClass c = true ↔ isDomainChar c := by
  simp only [inClass, domainClass, List.any_cons, List.any_nil, Bool.or_eq_true,
    Bool.and_eq_true, decide_eq_true_eq, Bool.or_false, isDomainChar, isLowerLetter, isDecDigit,
    char_eq_iff_le]

namespace Regex

theorem matches_eps (s : List Char) : Matches eps s ↔ s = [] := Iff.rfl

theorem matches_cat (a b : Regex) (s : List Char) :
    Matches (cat a b) s ↔ ∃ u v, s = u ++ v ∧ Matches a u ∧ Matches b v := Iff.rfl

theorem matches_lit (c : Char) (s : List Char) : Matches (lit c) s ↔ s = [c] := by
  simp only [lit, Matches, inClass, List.any_cons, List.any_nil, Bool.or_false,
    Bool.and_eq_true, decide_eq_true_eq]
  constructor
  · rintro ⟨x, rfl, h1, h2⟩
    rw [le_antisymm h2 h1]
  · rintro rfl
    exact ⟨c, rfl, le_refl _, le_refl _⟩

theorem matches_star_cls (rs : List (Char × Char)) (s : List Char) :
    Matches (star (cls rs)) s ↔ ∀ c ∈ s, inClass rs c = true := by
  simp only [Matches]
  constructor
  · rintro ⟨parts, rfl, h⟩ c hc
    obtain ⟨p, hp, hcp⟩ := List.mem_flatten.mp hc
    obtain ⟨-, x, rfl, hx⟩ := h p hp
    rw [List.mem_singleton.mp hcp]
    exact hx
  · intro h
    refine ⟨s.map fun c => [c], ?_, ?_⟩
    · clear h
      induction s with
      | nil => rfl
      | cons x xs ih => simp [← ih]
    · intro p hp
      obtain ⟨c, hc, rfl⟩ := List.mem_map.mp hp
      exact ⟨by simp, c, rfl, h c hc⟩

theorem matches_plus_cls (rs : List (Char × Char)) (s : List Char) :
    Matches (plus (cls rs)) s ↔ s ≠ [] ∧ ∀ c ∈ s, inClass rs c = true := by
  unfold plus
  rw [Matches]
  simp only [matches_star_cls]
  constructor
  · rintro ⟨u, v, rfl, ⟨c, rfl, hc⟩, hv⟩
    refine ⟨by simp, ?_⟩
    intro x hx
    rcases List.mem_append.mp hx with h | h
    · rw [List.mem_singleton.mp h]; exact hc
    · exact hv x h
  · rintro ⟨hne, h⟩
    cases s with
    | nil => exact absurd rfl hne
    | cons x xs =>
      exact ⟨[x], xs, rfl, ⟨x, rfl, h x (List.mem_cons_self _ _)⟩,
        fun c hc => h c (List.mem_cons_of_mem _ hc)⟩

theorem matches_times_cls (rs : List (Char × Char)) (n : Nat) :
    ∀ s, Matches (times (cls rs) n) s ↔ s.length = n ∧ ∀ c ∈ s, inClass rs c = true := by
  induction n with
  | zero =>
    intro s
    simp only [times, Matches, List.length_eq_zero]
    exact ⟨fun h => ⟨h, by simp [h]⟩, fun h => h.1⟩
  | succ n ih =>
    intro s
    simp only [times, Matches, ih]
    constructor
    · rintro ⟨u, v, rfl, ⟨c, rfl, hc⟩, hlen, hv⟩
      refine ⟨by simp [hlen], ?_⟩
      intro x hx
      rcases List.mem_append.mp hx with h | h
      · rw [List.mem_singleton.mp h]; exact hc
      · exact hv x h
    · rintro ⟨hlen, h⟩
      cases s with
      | nil => simp at hlen
      | cons x xs =>
        exact ⟨[x], xs, rfl, ⟨x, rfl, h x (List.mem_cons_self _ _)⟩, by simpa using hlen,
          fun c hc => h c (List.mem_cons_of_mem _ hc)⟩

theorem matches_upTo_cls (rs : List (Char × Char)) (n : Nat) :
    ∀ s, Matches (upTo (cls rs) n) s ↔ s.length ≤ n ∧ ∀ c ∈ s, inClass rs c = true := by
  induction n with
  | zero =>
    intro s
    simp only [upTo, Matches, Nat.le_zero, List.length_eq_zero]
    exact ⟨fun h => ⟨h, by simp [h]⟩, fun h => h.1⟩
  | succ n ih =>
    intro s
    simp only [upTo, opt, Matches, ih]
    constructor
    · rintro (rfl | ⟨u, v, rfl, ⟨c, rfl, hc⟩, hlen, hv⟩)
      · simp
      · refine ⟨by simp; omega, ?_⟩
        intro x hx
        rcases List.mem_append.mp hx with h | h
        · rw [List.mem_singleton.mp h]; exact hc
        · exact hv x h
    · rintro ⟨hlen, h⟩
      cases s with
      | nil => left; rfl
      | cons x xs =>
        right
        exact ⟨[x], xs, rfl, ⟨x, rfl, h x (List.mem_cons_self _ _)⟩,
          by simp at hlen; omega, fun c hc => h c (List.mem_cons_of_mem _ hc)⟩

theorem matches_rep_cls (rs : List (Char × Char)) (lo hi : Nat) (hle : lo ≤ hi) (s : List Char) :
    Matches (rep (cls rs) lo hi) s ↔
      (lo ≤ s.length ∧ s.length ≤ hi) ∧ ∀ c ∈ s, inClass rs c = true := by
  unfold rep
  rw [Matches]
  simp only [matches_times_cls, matches_upTo_cls]
  constructor
  · rintro ⟨u, v, rfl, ⟨hu, hu'⟩, hv, hv'⟩
    refine ⟨by simp; omega, ?_⟩
    intro x hx
    rcases List.mem_append.mp hx with h | h
    · exact hu' x h
    · exact hv' x h
  · rintro ⟨⟨h1, h2⟩, h⟩
    refine ⟨s.take lo, s.drop lo, (List.take_append_drop lo s).symm, ⟨?_, ?_⟩, ?_, ?_⟩
    · simp; omega
    · exact fun c hc => h c (List.mem_of_mem_take hc)
    · simp; omega
    · exact fun c hc => h c (List.mem_of_mem_drop hc)

end Regex

/-- The validator accepts exactly the rune sequences of the grammar. -/
theorem isValidEmail_iff_data (s : String) :
    IsValidEmail s = true ↔
      ∃ L D T : List Char, s.data = L ++ '@' :: (D ++ '.' :: T) ∧
        L ≠ [] ∧ (∀ c ∈ L, isLocalChar c) ∧ D ≠ [] ∧ (∀ c ∈ D, isDomainChar c) ∧
        (2 ≤ T.length ∧ T.length ≤ 4) ∧ (∀ c ∈ T, isLowerLetter c) := by
  unfold IsValidEmail Regexp.MatchString emailRegexp
  simp only [if_true, Regex.matchFull_iff]
  simp only [Regex.matches_cat, Regex.matches_eps, Regex.matches_lit, Regex.matches_plus_cls,
    Regex.matches_rep_cls _ 2 4 (by decide), inClass_localClass, inClass_domainClass,
    inClass_lowerClass]
  constructor
  · rintro ⟨u, v, huv, rfl, w, e, rfl, ⟨L, r1, rfl, ⟨hL, hL'⟩, a, r2, rfl, rfl, D, r3, rfl,
      ⟨hD, hD'⟩, b, T, rfl, rfl, hT, hT'⟩, rfl⟩
    refine ⟨L, D, T, ?_, hL, hL', hD, hD', hT, hT'⟩
    simp [huv]
  · rintro ⟨L, D, T, hs, hL, hL', hD, hD', hT, hT'⟩
    refine ⟨[], s.data, rfl, rfl, s.data, [], by simp, ⟨L, '@' :: (D ++ '.' :: T), hs,
      ⟨hL, hL'⟩, ['@'], D ++ '.' :: T, rfl, rfl, D, '.' :: T, rfl, ⟨hD, hD'⟩, ['.'], T, rfl, rfl,
      hT, hT'⟩, rfl⟩

theorem isValidEmail_iff_shape (s : String) : IsValidEmail s = true ↔ EmailShape s := by
  rw [isValidEmail_iff_data]
  unfold EmailShape
  constructor
  · rintro ⟨L, D, T, hs, hL, hL', hD, hD', hT, hT'⟩
    refine ⟨⟨L⟩, ⟨D⟩, ⟨T⟩, ?_, ?_, hL', ?_, hD', ?_, hT'⟩
    · apply String.ext
      simp [hs]
    · intro h
      exact hL (congrArg String.data h)
    · intro h
      exact hD (congrArg String.data h)
    · show T.length = 2 ∨ T.length = 3 ∨ T.length = 4
      omega
  · rintro ⟨L, D, T, rfl, hL, hL', hD, hD', hT, hT'⟩
    refine ⟨L.data, D.data, T.data, by simp, ?_, hL', ?_, hD', ?_, hT'⟩
    · intro h
      exact hL (String.ext h)
    · intro h
      exact hD (String.ext h)
    · have : T.length = T.data.length := rfl
      omega

theorem not_upper_of_local {c : Char} (h : isLocalChar c) : ¬ isUpperLetter c := by
  rintro ⟨hA, hZ⟩
  rcases h with ⟨ha, -⟩ | ⟨-, h9⟩ | rfl | rfl | rfl | rfl | rfl
  · exact absurd (le_trans ha hZ) (by decide)
  · exact absurd (le_trans hA h9) (by decide)
  · exact absurd hA (by decide)
  · exact absurd hZ (by decide)
  · exact absurd hA (by decide)
  · exact absurd hA (by decide)
  · exact absurd hA (by decide)

theorem local_of_domain {c : Char} (h : isDomainChar c) : isLocalChar c := by
  rcases h with h | h | h | h
  · exact Or.inl h
  · exact Or.inr (Or.inl h)
  · exact Or.inr (Or.inr (Or.inl h))
  · exact Or.inr (Or.inr (Or.inr (Or.inr (Or.inr (Or.inr h)))))

theorem local_of_lower {c : Char} (h : isLowerLetter c) : isLocalChar c := Or.inl h

theorem local_ne_at {c : Char} (h : isLocalChar c) : c ≠ '@' := by
  rintro rfl
  rcases h with ⟨h, -⟩ | ⟨-, h⟩ | h | h | h | h | h
  all_goals exact absurd h (by decide)

theorem count_at_eq_zero {l : List Char} (h : ∀ c ∈ l, isLocalChar c) : l.count '@' = 0 :=
  List.count_eq_zero.mpr fun hmem => local_ne_at (h _ hmem) rfl

/-- An accepted string has one `@`, and what follows it holds a dot. -/
theorem isValidEmail_one_at {s : String} (h : IsValidEmail s = true) :
    s.data.count '@' = 1 ∧ ∃ pre post, s.data = pre ++ '@' :: post ∧ '.' ∈ post := by
  obtain ⟨L, D, T, hs, -, hL, -, hD, -, hT⟩ := (isValidEmail_iff_data s).mp h
  refine ⟨?_, L, D ++ '.' :: T, hs, by simp⟩
  have h1 := count_at_eq_zero hL
  have h2 := count_at_eq_zero fun c hc => local_of_domain (hD c hc)
  have h3 := count_at_eq_zero fun c hc => local_of_lower (hT c hc)
  rw [hs]
  simp [List.count_append, List.count_cons, h1, h2, h3]

/-- No rune of an accepted string is an uppercase letter. -/
theorem isValidEmail_no_upper {s : String} (h : IsValidEmail s = true) :
    ∀ c ∈ s.data, ¬ isUpperLetter c := by
  obtain ⟨L, D, T, hs, -, hL, -, hD, -, hT⟩ := (isValidEmail_iff_data s).mp h
  intro c hc
  rw [hs] at hc
  simp only [List.mem_append, List.mem_cons] at hc
  rcases hc with hc | rfl | hc | rfl | hc
  · exact not_upper_of_local (hL c hc)
  · rintro ⟨hA, -⟩; exact absurd hA (by decide)
  · exact not_upper_of_local (local_of_domain (hD c hc))
  · rintro ⟨hA, -⟩; exact absurd hA (by decide)
  · exact not_upper_of_local (local_of_lower (hT c hc))

/-- C3: `IsValidEmail s` holds exactly when `s` is `L ++ "@" ++ D ++ "." ++ T` with `L`
non-empty over `[a-z0-9._%+-]`, `D` non-empty over `[a-z0-9.-]` and `T` of two to four
lowercase letters, nothing standing before `L` or after `T`; `"host@net.com"` is accepted,
and the same address with a trailing newline or a surrounding blank is rejected. -/
theorem C3_isValidEmail_iff_grammar :
    (∀ s : String, IsValidEmail s = true ↔ EmailShape s) ∧
      IsValidEmail "host@net.com" = true ∧
      IsValidEmail "host@net.com\n" = false ∧
      IsValidEmail " host@net.com" = false ∧
      IsValidEmail "host@net.com " = false :=
  ⟨isValidEmail_iff_shape, by decide, by decide, by decide, by decide⟩

/-- C4: every string accepted by `IsValidEmail` contains exactly one `@` and a dot after
it; hence a string whose number of `@` is not one, or which has no dot after an `@`, is
rejected, as are `"email"`, `"host@net@net.com"` and `"host@com"`. -/
theorem C4_one_at_and_dot_after :
    (∀ s : String, IsValidEmail s = true →
        s.data.count '@' = 1 ∧ ∃ pre post, s.data = pre ++ '@' :: post ∧ '.' ∈ post) ∧
      (∀ s : String, s.data.count '@' ≠ 1 → IsValidEmail s = false) ∧
      (∀ s : String, (∀ pre post, s.data = pre ++ '@' :: post → '.' ∉ post) →
        IsValidEmail s = false) ∧
      IsValidEmail "email" = false ∧
      IsValidEmail "host@net@net.com" = false ∧
      IsValidEmail "host@com" = false := by
  refine ⟨fun s h => isValidEmail_one_at h, ?_, ?_, by decide, by decide, by decide⟩
  · intro s hne
    cases hv : IsValidEmail s with
    | false => rfl
    | true => exact absurd (isValidEmail_one_at hv).1 hne
  · intro s hno
    cases hv : IsValidEmail s with
    | false => rfl
    | true =>
      obtain ⟨-, pre, post, hs, hdot⟩ := isValidEmail_one_at hv
      exact absurd hdot (hno pre post hs)

/-- The first part of C4 at `"host@net.com"`: one `@`, followed by `net.com`. -/
theorem C4_one_at_and_dot_after_witness :
    IsValidEmail "host@net.com" = true ∧ "host@net.com".data.count '@' = 1 ∧
      ∃ pre post, "host@net.com".data = pre ++ '@' :: post ∧ '.' ∈ post :=
  ⟨by decide, C4_one_at_and_dot_after.1 "host@net.com" (by decide)⟩

/-- C5: a string containing an uppercase letter `A-Z` anywhere is rejected by
`IsValidEmail`; `"Host@Net.COM"` is rejected while its lowercase form `"host@net.com"` is
accepted. -/
theorem C5_uppercase_rejected :
    (∀ s : String, (∃ c ∈ s.data, isUpperLetter c) → IsValidEmail s = false) ∧
      IsValidEmail "Host@Net.COM" = false ∧
      "Host@Net.COM".data.map Char.toLower = "host@net.com".data ∧
      IsValidEmail "host@net.com" = true := by
  refine ⟨?_, by decide, by decide, by decide⟩
  rintro s ⟨c, hc, hup⟩
  cases hv : IsValidEmail s with
  | false => rfl
  | true => exact absurd hup (isValidEmail_no_upper hv c hc)

/-- C5 at `"host@Net.com"`, whose only uppercase letter stands in the domain. -/
theorem C5_uppercase_rejected_witness :
    (∃ c ∈ "host@Net.com".data, isUpperLetter c) ∧ IsValidEmail "host@Net.com" = false :=
  ⟨⟨'N', by decide, by decide, by decide⟩,
    C5_uppercase_rejected.1 "host@Net.com" ⟨'N', by decide, by decide, by decide⟩⟩


/-! ## Stable sorting -/

theorem insertStable_perm {α : Type} (less : α → α → Bool) (x : α) (l : List α) :
    (insertStable less x l).Perm (x :: l) := by
  induction l with
  | nil => exact List.Perm.refl _
  | cons y ys ih =>
    unfold insertStable
    split
    · exact (List.Perm.cons y ih).trans (List.Perm.swap x y ys)
    · exact List.Perm.refl _

theorem sliceStable_perm {α : Type} (less : α → α → Bool) (l : List α) :
    (SliceStable less l).Perm l := by
  induction l with
  | nil => exact List.Perm.refl _
  | cons x xs ih =>
    exact (insertStable_perm less x _).trans (List.Perm.cons x ih)

theorem sort_perm (d : Domains) : d.Sort.Perm d := sliceStable_perm _ d

theorem insertStable_sorted (x : Domain) (l : Domains)
    (h : l.Pairwise fun a b => a.Occurences ≥ b.Occurences) :
    (insertStable (fun a b => decide (a.Occurences > b.Occurences)) x l).Pairwise
      fun a b => a.Occurences ≥ b.Occurences := by
  induction l with
  | nil => simp [insertStable]
  | cons y ys ih =>
    obtain ⟨hy, hys⟩ := List.pairwise_cons.mp h
    unfold insertStable
    split
    · rename_i hlt
      refine List.pairwise_cons.mpr ⟨?_, ih hys⟩
      intro z hz
      rcases List.mem_cons.mp ((insertStable_perm _ x ys).subset hz) with rfl | hz
      · have : y.Occurences > z.Occurences := by simpa using hlt
        omega
      · exact hy z hz
    · rename_i hlt
      have hxy : x.Occurences ≥ y.Occurences := by
        have : ¬ y.Occurences > x.Occurences := by simpa using hlt
        omega
      refine List.pairwise_cons.mpr ⟨?_, h⟩
      intro z hz
      rcases List.mem_cons.mp hz with rfl | hz
      · exact hxy
      · have := hy z hz
        omega

theorem sort_sorted (d : Domains) :
    d.Sort.Pairwise fun a b => a.Occurences ≥ b.Occurences := by
  unfold Domains.Sort
  induction d with
  | nil => simp [SliceStable]
  | cons x xs ih => exact insertStable_sorted x _ ih

theorem insertStable_filter (n : Int) (x : Domain) (l : Domains) :
    (insertStable (fun a b => decide (a.Occurences > b.Occurences)) x l).filter
        (fun r => decide (r.Occurences = n)) =
      (x :: l).filter fun r => decide (r.Occurences = n) := by
  induction l with
  | nil => simp [insertStable]
  | cons y ys ih =>
    unfold insertStable
    split
    · rename_i hlt
      have hlt' : y.Occurences > x.Occurences := by simpa using hlt
      rw [List.filter_cons, ih]
      by_cases hx : x.Occurences = n
      · have hy : ¬ y.Occurences = n := by omega
        simp [List.filter_cons, hx, hy]
      · simp [List.filter_cons, hx]
    · rfl

theorem sort_filter (n : Int) (d : Domains) :
    d.Sort.filter (fun r => decide (r.Occurences = n)) =
      d.filter fun r => decide (r.Occurences = n) := by
  unfold Domains.Sort
  induction d with
  | nil => rfl
  | cons x xs ih =>
    show (insertStable _ x (SliceStable _ xs)).filter _ = _
    rw [insertStable_filter, List.filter_cons, List.filter_cons, ih]

theorem sort_keeps_order (d : Domains) (a b : Domain) (hab : a.Occurences = b.Occurences)
    (h : List.Sublist [a, b] d) : List.Sublist [a, b] d.Sort := by
  have h1 := h.filter fun r => decide (r.Occurences = a.Occurences)
  rw [← sort_filter a.Occurences d] at h1
  have h2 : [a, b].filter (fun r => decide (r.Occurences = a.Occurences)) = [a, b] := by
    simp [List.filter_cons, hab]
  rw [h2] at h1
  exact h1.trans (List.filter_sublist _)

/-- C9: `Sort` rearranges any sequence of records into a permutation of itself that is
non-increasing by `Occurences`, and it is stable: the records with any given count stand
in the order they had before, so two records with equal counts keep their relative order;
`[{blogger.com,2},{gmail.com,1},{mail.com,4}]` becomes
`[{mail.com,4},{blogger.com,2},{gmail.com,1}]`. -/
theorem C9_sort_stable_descending :
    (∀ d : Domains,
        d.Sort.Perm d ∧
        d.Sort.Pairwise (fun a b => a.Occurences ≥ b.Occurences) ∧
        (∀ n : Int, d.Sort.filter (fun r => decide (r.Occurences = n)) =
          d.filter fun r => decide (r.Occurences = n)) ∧
        (∀ a b : Domain, a.Occurences = b.Occurences →
          List.Sublist [a, b] d → List.Sublist [a, b] d.Sort)) ∧
      Domains.Sort [⟨"blogger.com", 2⟩, ⟨"gmail.com", 1⟩, ⟨"mail.com", 4⟩] =
        [⟨"mail.com", 4⟩, ⟨"blogger.com", 2⟩, ⟨"gmail.com", 1⟩] :=
  ⟨fun d => ⟨sort_perm d, sort_sorted d, fun n => sort_filter n d,
    fun a b hab h => sort_keeps_order d a b hab h⟩, by decide⟩

/-- The stability part of C9 on a sequence with a tie: `a.com` and `b.com`, both counted
once, stay in that order behind `c.com`. -/
theorem C9_sort_stable_descending_witness :
    List.Sublist [(⟨"a.com", 1⟩ : Domain), ⟨"b.com", 1⟩]
      (Domains.Sort [⟨"a.com", 1⟩, ⟨"b.com", 1⟩, ⟨"c.com", 2⟩]) :=
  (C9_sort_stable_descending.1 [⟨"a.com", 1⟩, ⟨"b.com", 1⟩, ⟨"c.com", 2⟩]).2.2.2
    ⟨"a.com", 1⟩ ⟨"b.com", 1⟩ rfl (by decide)

/-! ## Domain extraction -/

theorem splitRunes_of_not_mem (sep : Char) (l : List Char) (h : sep ∉ l) :
    splitRunes sep l = [l] := by
  induction l with
  | nil => rfl
  | cons c cs ih =>
    have hc : c ≠ sep := fun e => h (e ▸ List.mem_cons_self c cs)
    have hcs : sep ∉ cs := fun e => h (List.mem_cons_of_mem _ e)
    simp [splitRunes, hc, ih hcs]

theorem splitRunes_append (sep : Char) (pre post : List Char) (h : sep ∉ pre) :
    splitRunes sep (pre ++ sep :: post) = pre :: splitRunes sep post := by
  induction pre with
  | nil => simp [splitRunes]
  | cons c cs ih =>
    have hc : c ≠ sep := fun e => h (e ▸ List.mem_cons_self c cs)
    have hcs : sep ∉ cs := fun e => h (List.mem_cons_of_mem _ e)
    simp [splitRunes, hc, ih hcs]

theorem dropWhile_ne_append (sep : Char) (pre post : List Char) (h : sep ∉ pre) :
    (pre ++ sep :: post).dropWhile (fun c => c != sep) = sep :: post := by
  induction pre with
  | nil => simp [List.dropWhile]
  | cons c cs ih =>
    have hc : c ≠ sep := fun e => h (e ▸ List.mem_cons_self c cs)
    have hcs : sep ∉ cs := fun e => h (List.mem_cons_of_mem _ e)
    have hb : (c != sep) = true := by simpa using hc
    simp only [List.cons_append, List.dropWhile, hb]
    exact ih hcs

/-- On an accepted string, `strings.Split(email, "@")` has exactly two parts, and the
second is the domain. -/
theorem split_of_valid {email : String} (h : IsValidEmail email = true) :
    ∃ l : String, stringsSplit email '@' = [l, domainOf email] := by
  obtain ⟨L, D, T, hs, -, hL, -, hD, -, hT⟩ := (isValidEmail_iff_data email).mp h
  have h1 : '@' ∉ L := fun hm => local_ne_at (hL _ hm) rfl
  have h2 : '@' ∉ D ++ '.' :: T := by
    intro hm
    rcases List.mem_append.mp hm with hm | hm
    · exact local_ne_at (local_of_domain (hD _ hm)) rfl
    · rcases List.mem_cons.mp hm with hm | hm
      · exact absurd hm (by decide)
      · exact local_ne_at (local_of_lower (hT _ hm)) rfl
  refine ⟨⟨L⟩, ?_⟩
  unfold stringsSplit domainOf
  rw [hs, splitRunes_append _ _ _ h1, splitRunes_of_not_mem _ _ h2,
    dropWhile_ne_append _ _ _ h1]
  rfl

theorem split_index_of_valid {email : String} (h : IsValidEmail email = true) :
    (stringsSplit email '@')[1]? = some (domainOf email) := by
  obtain ⟨l, hl⟩ := split_of_valid h
  rw [hl]
  rfl

/-! ## Maps -/

namespace GoMap

theorem get_eq_zero_of_not_mem (m : GoMap) (k : String) (h : k ∉ m.keys) : m.get k = 0 := by
  induction m with
  | nil => rfl
  | cons p rest ih =>
    obtain ⟨k', v⟩ := p
    simp only [keys, List.map_cons, List.mem_cons, not_or] at h
    have hne : ¬ k' = k := fun e => h.1 e.symm
    simp only [get, hne, if_false]
    exact ih h.2

theorem get_set (m : GoMap) (k : String) (v : Int) (k' : String) :
    (m.set k v).get k' = if k' = k then v else m.get k' := by
  induction m with
  | nil =>
    by_cases h : k' = k
    · simp [set, get, h]
    · have h' : ¬ k = k' := fun e => h e.symm
      simp [set, get, h, h']
  | cons p rest ih =>
    obtain ⟨k₀, v₀⟩ := p
    by_cases h0 : k₀ = k
    · subst h0
      by_cases h : k' = k₀
      · simp [set, get, h]
      · have h' : ¬ k₀ = k' := fun e => h e.symm
        simp [set, get, h, h']
    · by_cases h : k₀ = k'
      · subst h
        simp [set, get, h0]
      · simp [set, get, h0, h, ih]

theorem keys_set (m : GoMap) (k : String) (v : Int) :
    (m.set k v).keys = if k ∈ m.keys then m.keys else m.keys ++ [k] := by
  induction m with
  | nil => simp [set, keys]
  | cons p rest ih =>
    obtain ⟨k₀, v₀⟩ := p
    by_cases h0 : k₀ = k
    · subst h0
      simp [set, keys]
    · have h0' : ¬ k = k₀ := fun e => h0 e.symm
      simp only [keys] at ih
      simp only [set, h0, if_false, keys, List.map_cons, List.mem_cons, h0', false_or, ih]
      split <;> simp

theorem nodup_keys_set (m : GoMap) (k : String) (v : Int) (h : m.keys.Nodup) :
    (m.set k v).keys.Nodup := by
  rw [keys_set]
  split
  · exact h
  · rename_i hk
    exact List.Nodup.append h (List.nodup_singleton k) (by simpa using hk)

theorem total_set (m : GoMap) (k : String) (v : Int) :
    (m.set k v).total = m.total - m.get k + v := by
  induction m with
  | nil => simp [set, total, get]
  | cons p rest ih =>
    obtain ⟨k₀, v₀⟩ := p
    by_cases h0 : k₀ = k
    · simp only [set, h0, if_true, total, get, List.map_cons, List.sum_cons]
      omega
    · simp only [total] at ih
      simp only [set, h0, if_false, total, get, List.map_cons, List.sum_cons, ih]
      omega

theorem total_incr (m : GoMap) (k : String) : (m.incr k).total = m.total + 1 := by
  unfold incr
  rw [total_set]
  omega

theorem mem_iff_get (m : GoMap) (h : m.keys.Nodup) (k : String) (v : Int) :
    (k, v) ∈ m ↔ k ∈ m.keys ∧ m.get k = v := by
  induction m with
  | nil => simp [keys]
  | cons p rest ih =>
    obtain ⟨k₀, v₀⟩ := p
    simp only [keys, List.map_cons, List.nodup_cons] at h
    have ih' := ih h.2
    simp only [keys] at ih'
    by_cases h0 : k₀ = k
    · subst h0
      have hnot : ∀ w, (k₀, w) ∉ rest := fun w hm => h.1 (List.mem_map.mpr ⟨(k₀, w), hm, rfl⟩)
      simp [keys, get, hnot, eq_comm]
    · have h0' : ¬ k = k₀ := fun e => h0 e.symm
      simp [keys, get, h0, h0', ih']

theorem counted_nil : Counted [] := ⟨List.nodup_nil, fun _ h => absurd h (List.not_mem_nil _)⟩

theorem get_nonneg_of_counted {m : GoMap} (h : Counted m) (k : String) : m.get k ≥ 0 := by
  by_cases hk : k ∈ m.keys
  · have := h.2 k hk
    omega
  · rw [get_eq_zero_of_not_mem m k hk]

theorem counted_incr {m : GoMap} (h : Counted m) (k : String) : Counted (m.incr k) := by
  refine ⟨nodup_keys_set m k _ h.1, ?_⟩
  intro k' hk'
  unfold incr at hk' ⊢
  rw [get_set]
  split
  · have := get_nonneg_of_counted h k
    omega
  · rename_i hne
    rw [keys_set] at hk'
    split at hk'
    · exact h.2 k' hk'
    · rcases List.mem_append.mp hk' with hk' | hk'
      · exact h.2 k' hk'
      · exact absurd (List.mem_singleton.mp hk') hne

theorem mem_iff_of_counted {m : GoMap} (h : Counted m) (k : String) (v : Int) :
    (k, v) ∈ m ↔ v ≥ 1 ∧ v = m.get k := by
  rw [mem_iff_get m h.1]
  constructor
  · rintro ⟨hk, rfl⟩
    exact ⟨h.2 k hk, rfl⟩
  · rintro ⟨hv, rfl⟩
    refine ⟨?_, rfl⟩
    by_contra hk
    rw [get_eq_zero_of_not_mem m k hk] at hv
    omega

end GoMap

/-! ## The counting loop -/

theorem tallyStep_counted {m : GoMap} (h : m.Counted) (e : String) : (tallyStep m e).Counted := by
  unfold tallyStep
  split
  · exact GoMap.counted_incr h _
  · exact h

theorem tallyFrom_counted (es : List String) : ∀ {m : GoMap}, m.Counted → (tallyFrom m es).Counted := by
  induction es with
  | nil => exact fun h => h
  | cons e es ih => exact fun h => ih (tallyStep_counted h e)

theorem tallyFrom_get (d : String) (es : List String) :
    ∀ m : GoMap, (tallyFrom m es).get d = m.get d + (validWithDomain es d : Int) := by
  induction es with
  | nil => intro m; simp [tallyFrom, validWithDomain]
  | cons e es ih =>
    intro m
    have hstep : tallyFrom m (e :: es) = tallyFrom (tallyStep m e) es := rfl
    rw [hstep, ih]
    unfold tallyStep validWithDomain
    rw [List.countP_cons]
    by_cases hv : IsValidEmail e = true
    · by_cases hd : domainOf e = d
      · simp only [hv, if_true, GoMap.incr, GoMap.get_set, hd, Bool.true_and, decide_True]
        push_cast
        omega
      · have hd' : ¬ d = domainOf e := fun h => hd h.symm
        simp [hv, GoMap.incr, GoMap.get_set, hd, hd']
    · simp [hv]

theorem tallyFrom_total (es : List String) :
    ∀ m : GoMap, (tallyFrom m es).total = m.total + (es.countP IsValidEmail : Int) := by
  induction es with
  | nil => intro m; simp [tallyFrom]
  | cons e es ih =>
    intro m
    have hstep : tallyFrom m (e :: es) = tallyFrom (tallyStep m e) es := rfl
    rw [hstep, ih, List.countP_cons]
    unfold tallyStep
    by_cases hv : IsValidEmail e = true
    · simp only [hv, if_true, GoMap.total_incr]
      push_cast
      omega
    · simp [hv]

theorem tallyFrom_filter (es : List String) :
    ∀ m : GoMap, tallyFrom m (es.filter IsValidEmail) = tallyFrom m es := by
  induction es with
  | nil => intro m; rfl
  | cons e es ih =>
    intro m
    by_cases hv : IsValidEmail e = true
    · rw [List.filter_cons_of_pos hv]
      exact ih (tallyStep m e)
    · rw [List.filter_cons_of_neg hv]
      have : tallyStep m e = m := by simp [tallyStep, hv]
      show _ = tallyFrom (tallyStep m e) es
      rw [this]
      exact ih m

/-- The loop over the in-memory source: with more fuel than values left it is left
through `break`, with the tally of the remaining values and the reader at its end. -/
theorem countLoop_mock (suf : List String) :
    ∀ (pre : List String) (fuel : Nat) (i : Int) (m : GoMap) (log : List Diagnostic),
      suf.length < fuel →
      countLoop (fun r => some (mockEmailReader.ReadEmail r)) fuel
          ⟨pre.length, pre ++ suf⟩ i m log =
        some (LoopExit.done (tallyFrom m suf), log ++ diagnosticsFrom i suf,
          ⟨(pre ++ suf).length, pre ++ suf⟩) := by
  induction suf with
  | nil =>
    intro pre fuel i m log hf
    obtain ⟨f, rfl⟩ : ∃ f, fuel = f + 1 := ⟨fuel - 1, by omega⟩
    simp [countLoop, mockEmailReader.ReadEmail, tallyFrom, diagnosticsFrom]
  | cons e es ih =>
    intro pre fuel i m log hf
    obtain ⟨f, rfl⟩ : ∃ f, fuel = f + 1 := ⟨fuel - 1, by omega⟩
    have hf' : es.length < f := by simpa using hf
    have hread : mockEmailReader.ReadEmail ⟨pre.length, pre ++ e :: es⟩ =
        ((e, none), ⟨(pre ++ [e]).length, (pre ++ [e]) ++ es⟩) := by
      have hget : (pre ++ e :: es)[pre.length]? = some e := by
        rw [List.getElem?_append_right (le_refl _)]
        simp
      simp [mockEmailReader.ReadEmail, List.getD, hget]
    have hnext := ih (pre ++ [e]) f (i + 1)
    rw [countLoop, hread]
    by_cases hv : IsValidEmail e = true
    · simp only [hv, Bool.not_true, Bool.false_eq_true, if_false, split_index_of_valid hv]
      rw [hnext _ _ hf']
      simp [tallyFrom, tallyStep, diagnosticsFrom, hv]
    · simp only [hv, Bool.not_false, if_true]
      rw [hnext _ _ hf']
      simp [tallyFrom, tallyStep, diagnosticsFrom, hv]

theorem mapToDomainSlice_eq (o : MapOrder) (m : GoMap) :
    MapToDomainSlice o m = (o.range m).map fun kv => ⟨kv.1, kv.2⟩ := by
  unfold MapToDomainSlice
  have key : ∀ (l : List (String × Int)) (acc : Domains),
      l.foldl (fun domainSlice kv => domainSlice ++ [({ Name := kv.1, Occurences := kv.2 } : Domain)])
        acc = acc ++ l.map fun kv => ⟨kv.1, kv.2⟩ := by
    intro l
    induction l with
    | nil => intro acc; simp
    | cons x xs ih => intro acc; simp [ih]
  simpa using key (o.range m) []

/-- The whole call on the in-memory source. -/
theorem countEmailDomains_mock (o : MapOrder) (emails : List String) (k : Nat) :
    CountEmailDomains o (emails.length + 1 + k) { reader := mockReader emails } =
      some { completion := Completion.returned
               (some (MapToDomainSlice o (tallyFrom [] emails)).Sort) none,
             log := diagnosticsFrom 2 emails,
             reader := ⟨emails.length, emails⟩ } := by
  have h := countLoop_mock emails [] (emails.length + 1 + k) 2 [] [] (by omega)
  simp only [List.nil_append, List.length_nil] at h
  simp only [CountEmailDomains, mockReader, h]

theorem countMock_eq (o : MapOrder) (emails : List String) (k : Nat) :
    countMock o (emails.length + 1 + k) emails =
      some (Completion.returned (some (MapToDomainSlice o (tallyFrom [] emails)).Sort) none) := by
  simp only [countMock, countEmailDomains_mock, Option.map_some']

/-- The records of a report are those of the map, in some order. -/
theorem report_perm (o : MapOrder) (m : GoMap) :
    (MapToDomainSlice o m).Sort.Perm (m.map fun kv => ⟨kv.1, kv.2⟩) := by
  rw [mapToDomainSlice_eq]
  exact (sort_perm _).trans ((o.range_perm m).map _)

theorem report_mem_iff (o : MapOrder) (m : GoMap) (d : String) (n : Int) :
    (⟨d, n⟩ : Domain) ∈ (MapToDomainSlice o m).Sort ↔ (d, n) ∈ m := by
  rw [(report_perm o m).mem_iff, List.mem_map]
  constructor
  · rintro ⟨⟨k, v⟩, hm, he⟩
    simp only [Domain.mk.injEq] at he
    rw [← he.1, ← he.2]
    exact hm
  · intro hm
    exact ⟨(d, n), hm, rfl⟩

theorem report_names_nodup (o : MapOrder) (m : GoMap) (h : m.keys.Nodup) :
    ((MapToDomainSlice o m).Sort.map Domain.Name).Nodup := by
  have hp := (report_perm o m).map Domain.Name
  rw [List.map_map] at hp
  exact hp.nodup_iff.mpr h

theorem report_sum (o : MapOrder) (m : GoMap) :
    ((MapToDomainSlice o m).Sort.map Domain.Occurences).sum = m.total := by
  have hp := (report_perm o m).map Domain.Occurences
  rw [List.map_map] at hp
  exact hp.sum_eq

theorem perm_pair {α : Type} {a b : α} {l : List α} (h : l.Perm [a, b]) :
    l = [a, b] ∨ l = [b, a] := by
  have hlen := h.length_eq
  match l, hlen with
  | [x, y], _ =>
    have hx : x ∈ [a, b] := h.subset (List.mem_cons_self _ _)
    simp only [List.mem_cons, List.mem_singleton, List.not_mem_nil, or_false] at hx
    rcases hx with rfl | rfl
    · left
      have := List.perm_singleton.mp (List.Perm.cons_inv h)
      simpa using this
    · right
      have h' := List.Perm.cons_inv (h.trans (List.Perm.swap _ _ _))
      have := List.perm_singleton.mp h'
      simpa using this

/-- The report of the test of `CountEmailDomains`, whatever the iteration order. -/
theorem report_of_test_map (o : MapOrder) :
    (MapToDomainSlice o [("gmail.com", 3), ("mail.com", 1)]).Sort =
      [⟨"gmail.com", 3⟩, ⟨"mail.com", 1⟩] := by
  rw [mapToDomainSlice_eq]
  rcases perm_pair (o.range_perm [("gmail.com", 3), ("mail.com", 1)]) with h | h
  · rw [h]; decide
  · rw [h]; decide

/-- Whatever the source, the map grows from a counted map to a counted map. -/
theorem countLoop_counted {σ : Type} (rd : σ → Option ((String × Option GoError) × σ)) :
    ∀ (fuel : Nat) (st : σ) (i : Int) (m : GoMap) (log : List Diagnostic)
      (m' : GoMap) (log' : List Diagnostic) (st' : σ),
      countLoop rd fuel st i m log = some (LoopExit.done m', log', st') →
      m.Counted → m'.Counted := by
  intro fuel
  induction fuel with
  | zero => intro st i m log m' log' st' h; simp [countLoop] at h
  | succ f ih =>
    intro st i m log m' log' st' h hm
    rw [countLoop] at h
    split at h
    · simp at h
    · split at h
      · simp only [Option.some.injEq, Prod.mk.injEq, LoopExit.done.injEq] at h
        rw [← h.1]
        exact hm
      · simp at h
    · split at h
      · exact ih _ _ _ _ _ _ _ h hm
      · split at h
        · simp at h
        · exact ih _ _ _ _ _ _ _ h (GoMap.counted_incr hm _)

/-- Whatever the source, a returned report is the sorted slice of a counted map. -/
theorem countEmailDomains_report {σ : Type} (o : MapOrder) (fuel : Nat) (c : domainCounter σ)
    (out : Outcome σ) (report : Domains) (err : Option GoError)
    (h : CountEmailDomains o fuel c = some out)
    (hc : out.completion = Completion.returned (some report) err) :
    ∃ m : GoMap, m.Counted ∧ report = (MapToDomainSlice o m).Sort := by
  unfold CountEmailDomains at h
  split at h
  · simp at h
  · simp only [Option.some.injEq] at h
    rw [← h] at hc
    simp at hc
  · simp only [Option.some.injEq] at h
    rw [← h] at hc
    simp at hc
  · rename_i m log st hloop
    simp only [Option.some.injEq] at h
    rw [← h] at hc
    simp only [Completion.returned.injEq, Option.some.injEq] at hc
    exact ⟨m, countLoop_counted _ _ _ _ _ _ _ _ _ hloop GoMap.counted_nil, hc.1.symm⟩

/-! ## The report of `CountEmailDomains` -/

/-- C1: over the in-memory source of any finite list, `CountEmailDomains` succeeds, and
its report holds the record `(d, n)` exactly when `n ≥ 1` and `n` is the number of strings
of the list that `IsValidEmail` accepts and whose part after the `@` is `d`; the list of
the test, with its two invalid rows, gives `[{gmail.com,3},{mail.com,1}]`. -/
theorem C1_report_counts_valid_per_domain :
    (∀ (o : MapOrder) (emails : List String) (k : Nat), ∃ report : Domains,
        countMock o (emails.length + 1 + k) emails =
          some (Completion.returned (some report) none) ∧
        ∀ (d : String) (n : Int),
          (⟨d, n⟩ : Domain) ∈ report ↔ n ≥ 1 ∧ n = (validWithDomain emails d : Int)) ∧
      (∀ (o : MapOrder) (k : Nat),
        countMock o (6 + 1 + k)
            ["host@gmail.com", "host2@gmail.com", "host@gmail.com", "host@mail.com", "email",
              "mail@.com"] =
          some (Completion.returned (some [⟨"gmail.com", 3⟩, ⟨"mail.com", 1⟩]) none)) := by
  constructor
  · intro o emails k
    refine ⟨_, countMock_eq o emails k, ?_⟩
    intro d n
    have hc := tallyFrom_counted emails GoMap.counted_nil
    rw [report_mem_iff, GoMap.mem_iff_of_counted hc, tallyFrom_get]
    simp [GoMap.get]
  · intro o k
    have h := countMock_eq o
      ["host@gmail.com", "host2@gmail.com", "host@gmail.com", "host@mail.com", "email",
        "mail@.com"] k
    have ht : tallyFrom []
        ["host@gmail.com", "host2@gmail.com", "host@gmail.com", "host@mail.com", "email",
          "mail@.com"] = [("gmail.com", 3), ("mail.com", 1)] := by decide
    rw [ht, report_of_test_map] at h
    exact h

/-- C2: over the in-memory source of any finite list, the `Occurences` of the records of
the report add up to the number of strings of the list that `IsValidEmail` accepts. -/
theorem C2_counts_sum_to_valid_rows (o : MapOrder) (emails : List String) (k : Nat) :
    ∃ report : Domains,
      countMock o (emails.length + 1 + k) emails =
        some (Completion.returned (some report) none) ∧
      (report.map Domain.Occurences).sum = (emails.countP IsValidEmail : Int) := by
  refine ⟨_, countMock_eq o emails k, ?_⟩
  rw [report_sum, tallyFrom_total]
  simp [GoMap.total]

/-- C6: the report of `CountEmailDomains` is non-increasing by count, each record having
at least the count of the next one: over the in-memory source of any list the call returns
such a report, and whatever the source, a report that is returned is such. -/
theorem C6_report_sorted_by_count :
    (∀ (o : MapOrder) (emails : List String) (k : Nat), ∃ report : Domains,
        countMock o (emails.length + 1 + k) emails =
          some (Completion.returned (some report) none) ∧
        report.Chain' fun a b => a.Occurences ≥ b.Occurences) ∧
      (∀ (σ : Type) (o : MapOrder) (fuel : Nat) (c : domainCounter σ) (out : Outcome σ)
          (report : Domains) (err : Option GoError),
        CountEmailDomains o fuel c = some out →
        out.completion = Completion.returned (some report) err →
        report.Chain' fun a b => a.Occurences ≥ b.Occurences) := by
  constructor
  · intro o emails k
    exact ⟨_, countMock_eq o emails k, (sort_sorted _).chain'⟩
  · intro σ o fuel c out report err h hc
    obtain ⟨m, -, rfl⟩ := countEmailDomains_report o fuel c out report err h hc
    exact (sort_sorted _).chain'

/-- The second part of C6 on the test of the package, with the map iterated in reverse:
the report `[{gmail.com,3},{mail.com,1}]` is returned, and it is non-increasing. -/
theorem C6_report_sorted_by_count_witness :
    List.Chain' (fun a b : Domain => a.Occurences ≥ b.Occurences)
      [⟨"gmail.com", 3⟩, ⟨"mail.com", 1⟩] :=
  C6_report_sorted_by_count.2 mockEmailReader MapOrder.reversed 5
    { reader := mockReader ["host@gmail.com", "host2@gmail.com", "host@gmail.com",
        "host@mail.com"] }
    { completion := Completion.returned (some [⟨"gmail.com", 3⟩, ⟨"mail.com", 1⟩]) none,
      log := [],
      reader := ⟨4, ["host@gmail.com", "host2@gmail.com", "host@gmail.com", "host@mail.com"]⟩ }
    [⟨"gmail.com", 3⟩, ⟨"mail.com", 1⟩] none (by decide) rfl

/-- C7: no two records of the report of `CountEmailDomains` have the same `Name`: over the
in-memory source of any list the call returns such a report, and whatever the source, a
report that is returned is such. -/
theorem C7_report_names_distinct :
    (∀ (o : MapOrder) (emails : List String) (k : Nat), ∃ report : Domains,
        countMock o (emails.length + 1 + k) emails =
          some (Completion.returned (some report) none) ∧
        (report.map Domain.Name).Nodup) ∧
      (∀ (σ : Type) (o : MapOrder) (fuel : Nat) (c : domainCounter σ) (out : Outcome σ)
          (report : Domains) (err : Option GoError),
        CountEmailDomains o fuel c = some out →
        out.completion = Completion.returned (some report) err →
        (report.map Domain.Name).Nodup) := by
  constructor
  · intro o emails k
    exact ⟨_, countMock_eq o emails k,
      report_names_nodup o _ (tallyFrom_counted emails GoMap.counted_nil).1⟩
  · intro σ o fuel c out report err h hc
    obtain ⟨m, hm, rfl⟩ := countEmailDomains_report o fuel c out report err h hc
    exact report_names_nodup o m hm.1

/-- The second part of C7 on the test of the package, with the map iterated in reverse:
the names `gmail.com` and `mail.com` of the returned report are distinct. -/
theorem C7_report_names_distinct_witness :
    (List.map Domain.Name [⟨"gmail.com", 3⟩, ⟨"mail.com", 1⟩]).Nodup :=
  C7_report_names_distinct.2 mockEmailReader MapOrder.reversed 5
    { reader := mockReader ["host@gmail.com", "host2@gmail.com", "host@gmail.com",
        "host@mail.com"] }
    { completion := Completion.returned (some [⟨"gmail.com", 3⟩, ⟨"mail.com", 1⟩]) none,
      log := [],
      reader := ⟨4, ["host@gmail.com", "host2@gmail.com", "host@gmail.com", "host@mail.com"]⟩ }
    [⟨"gmail.com", 3⟩, ⟨"mail.com", 1⟩] none (by decide) rfl

/-- C8, as stated, fails: with `a@x.com` read before `b@y.com` and the map iterated in the
reverse of insertion order, both domains are counted once and the report lists `y.com`
before `x.com`, against first-encountered order. -/
theorem C8_first_seen_order_counterexample :
    countMock MapOrder.reversed 3 ["a@x.com", "b@y.com"] =
        some (Completion.returned (some [⟨"y.com", 1⟩, ⟨"x.com", 1⟩]) none) ∧
      ¬ TiesInFirstSeenOrder ["a@x.com", "b@y.com"] [⟨"y.com", 1⟩, ⟨"x.com", 1⟩] := by
  refine ⟨by decide, ?_⟩
  intro h
  exact absurd (h ⟨"x.com", 1⟩ (by decide) ⟨"y.com", 1⟩ (by decide) rfl (by decide)) (by decide)

/-- C8, amended: over the in-memory source of any list, the records of the report with any
given count stand in the order in which the iteration over the count map in
`MapToDomainSlice` yielded them, so two domains with equal counts keep the relative order
of that iteration, whatever it is. -/
theorem C8_ties_keep_map_iteration_order (o : MapOrder) (emails : List String) (k : Nat) :
    ∃ (m : GoMap) (log : List Diagnostic) (st : mockEmailReader) (report : Domains),
      countLoop (mockReader emails).ReadEmail (emails.length + 1 + k) (mockReader emails).state
          2 [] [] = some (LoopExit.done m, log, st) ∧
      countMock o (emails.length + 1 + k) emails =
        some (Completion.returned (some report) none) ∧
      (∀ n : Int, report.filter (fun r => decide (r.Occurences = n)) =
        (MapToDomainSlice o m).filter fun r => decide (r.Occurences = n)) ∧
      (∀ a b : Domain, a.Occurences = b.Occurences →
        List.Sublist [a, b] (MapToDomainSlice o m) → List.Sublist [a, b] report) := by
  have h := countLoop_mock emails [] (emails.length + 1 + k) 2 [] [] (by omega)
  simp only [List.nil_append, List.length_nil] at h
  exact ⟨_, _, _, _, h, countMock_eq o emails k, fun n => sort_filter n _,
    fun a b hab hs => sort_keeps_order _ a b hab hs⟩

/-- C10: invalid rows are never fatal and never counted: over the in-memory source, the
call on any list and the call on that list without the strings `IsValidEmail` rejects both
succeed and return the same records, whatever the two map iterations, and the very same
report under one iteration order; the list of the test with `"email"` and `"mail@.com"`
appended gives the report of the list without them. -/
theorem C10_invalid_rows_not_counted :
    (∀ (o₁ o₂ : MapOrder) (emails : List String) (k₁ k₂ : Nat), ∃ r₁ r₂ : Domains,
        countMock o₁ (emails.length + 1 + k₁) emails =
          some (Completion.returned (some r₁) none) ∧
        countMock o₂ ((emails.filter IsValidEmail).length + 1 + k₂)
            (emails.filter IsValidEmail) =
          some (Completion.returned (some r₂) none) ∧
        r₁.Perm r₂) ∧
      (∀ (o : MapOrder) (emails : List String) (k₁ k₂ : Nat),
        countMock o (emails.length + 1 + k₁) emails =
          countMock o ((emails.filter IsValidEmail).length + 1 + k₂)
            (emails.filter IsValidEmail)) ∧
      (∀ (o : MapOrder) (k : Nat),
        countMock o (6 + 1 + k)
            ["host@gmail.com", "host2@gmail.com", "host@gmail.com", "host@mail.com", "email",
              "mail@.com"] =
          some (Completion.returned (some [⟨"gmail.com", 3⟩, ⟨"mail.com", 1⟩]) none) ∧
        countMock o (4 + 1 + k)
            ["host@gmail.com", "host2@gmail.com", "host@gmail.com", "host@mail.com"] =
          some (Completion.returned (some [⟨"gmail.com", 3⟩, ⟨"mail.com", 1⟩]) none)) := by
  refine ⟨?_, ?_, ?_⟩
  · intro o₁ o₂ emails k₁ k₂
    refine ⟨_, _, countMock_eq o₁ emails k₁, countMock_eq o₂ _ k₂, ?_⟩
    rw [tallyFrom_filter]
    exact (report_perm o₁ _).trans (report_perm o₂ _).symm
  · intro o emails k₁ k₂
    rw [countMock_eq, countMock_eq, tallyFrom_filter]
  · intro o k
    have h6 := countMock_eq o
      ["host@gmail.com", "host2@gmail.com", "host@gmail.com", "host@mail.com", "email",
        "mail@.com"] k
    have h4 := countMock_eq o
      ["host@gmail.com", "host2@gmail.com", "host@gmail.com", "host@mail.com"] k
    have t6 : tallyFrom []
        ["host@gmail.com", "host2@gmail.com", "host@gmail.com", "host@mail.com", "email",
          "mail@.com"] = [("gmail.com", 3), ("mail.com", 1)] := by decide
    have t4 : tallyFrom []
        ["host@gmail.com", "host2@gmail.com", "host@gmail.com", "host@mail.com"] =
          [("gmail.com", 3), ("mail.com", 1)] := by decide
    rw [t6, report_of_test_map] at h6
    rw [t4, report_of_test_map] at h4
    exact ⟨h6, h4⟩


/-! ## Sources in general -/

theorem diagnosticsFrom_eq (vals : List String) :
    ∀ n : Nat, diagnosticsFrom ((n : Int) + 2) vals = expectedDiagnosticsFrom n vals := by
  induction vals with
  | nil => intro n; rfl
  | cons v vs ih =>
    intro n
    have hn : ((n : Int) + 2 + 1) = ((n + 1 : Nat) : Int) + 2 := by push_cast; ring
    have hl : ((n : Int) + 2) = ((n + 1 : Nat) : Int) + 1 := by push_cast; ring
    unfold expectedDiagnosticsFrom
    rw [List.enumFrom_cons, List.filterMap_cons]
    by_cases hv : IsValidEmail v = true
    · simp only [diagnosticsFrom, hv, if_true, hn]
      exact ih (n + 1)
    · simp only [diagnosticsFrom, hv, Bool.false_eq_true, if_false]
      rw [hn, ih (n + 1), hl]
      rfl

theorem diagnosticsFrom_two (vals : List String) :
    diagnosticsFrom 2 vals = expectedDiagnostics vals := by
  have h := diagnosticsFrom_eq vals 0
  simpa [expectedDiagnostics] using h

/-- While the source returns values, the loop tallies them and logs the rejected ones. -/
theorem countLoop_reads {σ : Type} (rd : σ → Option ((String × Option GoError) × σ))
    (vals : List String) :
    ∀ (st stn : σ) (i : Int) (m : GoMap) (log : List Diagnostic) (f : Nat),
      afterReads rd st vals = some stn →
      countLoop rd (vals.length + f) st i m log =
        countLoop rd f stn (i + vals.length) (tallyFrom m vals)
          (log ++ diagnosticsFrom i vals) := by
  induction vals with
  | nil =>
    intro st stn i m log f h
    simp only [afterReads, Option.some.injEq] at h
    subst h
    simp [tallyFrom, diagnosticsFrom]
  | cons v vs ih =>
    intro st stn i m log f h
    rw [afterReads] at h
    have hlen : (v :: vs).length + f = (vs.length + f) + 1 := by simp; omega
    rw [hlen, countLoop]
    split at h
    · rename_i email st' hread
      split at h
      · rename_i hev
        subst hev
        rw [hread]
        have hi : i + ((email :: vs).length : Int) = i + 1 + (vs.length : Int) := by
          simp; ring
        by_cases hv : IsValidEmail email = true
        · simp only [hv, Bool.not_true, Bool.false_eq_true, if_false, split_index_of_valid hv]
          rw [ih st' stn (i + 1) _ _ f h, hi]
          simp [tallyFrom, tallyStep, diagnosticsFrom, hv]
        · simp only [hv, Bool.not_false, if_true]
          rw [ih st' stn (i + 1) _ _ f h, hi]
          simp [tallyFrom, tallyStep, diagnosticsFrom, hv]
      · simp at h
    · simp at h

/-- The whole call on a source that returns `vals` and then an error. -/
theorem countEmailDomains_reads {σ : Type} (o : MapOrder) (c : domainCounter σ)
    (vals : List String) (stn st' : σ) (s : String) (e : GoError) (k : Nat)
    (hvals : afterReads c.reader.ReadEmail c.reader.state vals = some stn)
    (hend : c.reader.ReadEmail stn = some ((s, some e), st')) :
    CountEmailDomains o (vals.length + 1 + k) c =
      some { completion :=
               if e = GoError.EOF then
                 Completion.returned (some (MapToDomainSlice o (tallyFrom [] vals)).Sort) none
               else Completion.returned none (some e),
             log := expectedDiagnostics vals,
             reader := st' } := by
  have h := countLoop_reads c.reader.ReadEmail vals c.reader.state stn 2 [] [] (k + 1) hvals
  have hf : vals.length + 1 + k = vals.length + (k + 1) := by omega
  unfold CountEmailDomains
  rw [hf, h, countLoop, hend]
  by_cases he : e = GoError.EOF
  · simp [he, diagnosticsFrom_two]
  · simp [he, diagnosticsFrom_two]

/-- A loop left with an error has met that error, not `io.EOF`, after some values. -/
theorem countLoop_failed {σ : Type} (rd : σ → Option ((String × Option GoError) × σ)) :
    ∀ (fuel : Nat) (st : σ) (i : Int) (m : GoMap) (log : List Diagnostic)
      (e : GoError) (log' : List Diagnostic) (st' : σ),
      countLoop rd fuel st i m log = some (LoopExit.failed e, log', st') →
      e ≠ GoError.EOF ∧ ∃ (vals : List String) (stn : σ) (s : String),
        afterReads rd st vals = some stn ∧ rd stn = some ((s, some e), st') := by
  intro fuel
  induction fuel with
  | zero => intro st i m log e log' st' h; simp [countLoop] at h
  | succ f ih =>
    intro st i m log e log' st' h
    rw [countLoop] at h
    split at h
    · simp at h
    · rename_i s err st1 hread
      split at h
      · simp at h
      · rename_i hne
        simp only [Option.some.injEq, Prod.mk.injEq, LoopExit.failed.injEq] at h
        obtain ⟨rfl, -, rfl⟩ := h
        exact ⟨hne, [], st, s, rfl, hread⟩
    · rename_i email st1 hread
      have step : ∀ {i' m' l'}, countLoop rd f st1 i' m' l' = some (LoopExit.failed e, log', st') →
          e ≠ GoError.EOF ∧ ∃ (vals : List String) (stn : σ) (s : String),
            afterReads rd st vals = some stn ∧ rd stn = some ((s, some e), st') := by
        intro i' m' l' h'
        obtain ⟨hne, vals, stn, s, hv, hs⟩ := ih _ _ _ _ _ _ _ h'
        refine ⟨hne, email :: vals, stn, s, ?_, hs⟩
        simp [afterReads, hread, hv]
      split at h
      · exact step h
      · split at h
        · simp at h
        · exact step h

/-- A reader that never panics makes a loop that never panics. -/
theorem countLoop_no_panic {σ : Type} (rd : σ → Option ((String × Option GoError) × σ))
    (hrd : ∀ st, rd st ≠ none) :
    ∀ (fuel : Nat) (st : σ) (i : Int) (m : GoMap) (log log' : List Diagnostic) (st' : σ),
      countLoop rd fuel st i m log ≠ some (LoopExit.panicked, log', st') := by
  intro fuel
  induction fuel with
  | zero => intro st i m log log' st' h; simp [countLoop] at h
  | succ f ih =>
    intro st i m log log' st' h
    rw [countLoop] at h
    split at h
    · rename_i hread
      exact hrd st hread
    · split at h <;> simp at h
    · rename_i email st1 hread
      split at h
      · exact ih _ _ _ _ _ _ h
      · rename_i hv
        have hv' : IsValidEmail email = true := by simpa using hv
        rw [split_index_of_valid hv'] at h
        exact ih _ _ _ _ _ _ h

theorem mapToDomainSlice_nil (o : MapOrder) : (MapToDomainSlice o []).Sort = [] := by
  rw [mapToDomainSlice_eq, List.Perm.eq_nil (o.range_perm [])]
  rfl

/-! ## The csv-backed source -/

theorem searchColumn_not_mem (c : String) (h : List String) :
    ∀ (i : Nat) (e : Int), c ∉ h → searchColumn c h i e = e := by
  induction h with
  | nil => intro i e _; rfl
  | cons f rest ih =>
    intro i e hc
    have hf : ¬ f = c := fun hfc => hc (hfc ▸ List.mem_cons_self f rest)
    have hr : c ∉ rest := fun hm => hc (List.mem_cons_of_mem _ hm)
    simp only [searchColumn, hf, if_false]
    exact ih _ _ hr

/-- The search ends on the last field equal to the column name. -/
theorem searchColumn_mem (c : String) (h : List String) :
    ∀ (i : Nat) (e : Int), c ∈ h → ∃ j : Nat, searchColumn c h i e = ((i + j : Nat) : Int) ∧
      h[j]? = some c ∧ ∀ j', j < j' → h[j']? ≠ some c := by
  induction h with
  | nil => intro i e hc; exact absurd hc (List.not_mem_nil _)
  | cons f rest ih =>
    intro i e hc
    by_cases hr : c ∈ rest
    · obtain ⟨j, hj, hget, hlast⟩ := ih (i + 1) (if f = c then (i : Int) else e) hr
      refine ⟨j + 1, ?_, by simpa using hget, ?_⟩
      · rw [searchColumn, hj]
        congr 1
        omega
      · intro j' hlt
        obtain ⟨j'', rfl⟩ : ∃ j'', j' = j'' + 1 := ⟨j' - 1, by omega⟩
        simpa using hlast j'' (by omega)
    · have hf : f = c := by
        rcases List.mem_cons.mp hc with h | h
        · exact h.symm
        · exact absurd h hr
      refine ⟨0, ?_, by simp [hf], ?_⟩
      · rw [searchColumn, searchColumn_not_mem c rest _ _ hr]
        simp [hf]
      · intro j' hlt hget
        obtain ⟨j'', rfl⟩ : ∃ j'', j' = j'' + 1 := ⟨j' - 1, by omega⟩
        simp only [List.getElem?_cons_succ] at hget
        exact hr (List.getElem?_mem hget)

theorem newCSVEmailReader_absent (h : List String) (rest : List csvItem) (c : String)
    (hc : c ∉ h) :
    NewCSVEmailReader (csvItem.record h :: rest) c =
      (none, some (GoError.ErrColumnNotFound c)) := by
  simp [NewCSVEmailReader, csvReader.Read, searchColumn_not_mem c h 0 (-1) hc]

theorem newCSVEmailReader_present (h : List String) (rest : List csvItem) (c : String)
    (hc : c ∈ h) :
    ∃ i : Nat, NewCSVEmailReader (csvItem.record h :: rest) c =
        (some { reader := { FieldsPerRecord := h.length, pending := rest }, emailColumn := i },
          none) ∧
      h[i]? = some c ∧ ∀ j, i < j → h[j]? ≠ some c := by
  obtain ⟨j, hj, hget, hlast⟩ := searchColumn_mem c h 0 (-1) hc
  refine ⟨j, ?_, hget, hlast⟩
  have hne : ¬ ((0 + j : Nat) : Int) = -1 := by omega
  simp only [NewCSVEmailReader, csvReader.Read, lt_self_iff_false, if_false, if_true, hj, hne]
  simp

/-- C13: for every header record `h` and column name `c`, `NewCSVEmailReader` fails with
`ErrColumnNotFound` carrying `c` exactly when no field of `h` equals `c`; otherwise it
succeeds with a column index `i` such that `h[i] == c`. The header `["name","mail"]` with
column `"email"` fails with `ErrColumnNotFound{"email"}`, the header `["name","email"]`
gives index 1, and neither `"Email"` nor `" email"` counts as `"email"`. -/
theorem C13_column_not_found_iff_absent :
    (∀ (h : List String) (rest : List csvItem) (c : String),
        (NewCSVEmailReader (csvItem.record h :: rest) c).2 =
          some (GoError.ErrColumnNotFound c) ↔ c ∉ h) ∧
      (∀ (h : List String) (rest : List csvItem) (c : String), c ∉ h →
        NewCSVEmailReader (csvItem.record h :: rest) c =
          (none, some (GoError.ErrColumnNotFound c))) ∧
      (∀ (h : List String) (rest : List csvItem) (c : String), c ∈ h →
        ∃ i : Nat, NewCSVEmailReader (csvItem.record h :: rest) c =
            (some { reader := { FieldsPerRecord := h.length, pending := rest },
                    emailColumn := i }, none) ∧
          h[i]? = some c) ∧
      NewCSVEmailReader
          [csvItem.record ["name", "mail"], csvItem.record ["John", "john.doe@mail.com"]]
          "email" = (none, some (GoError.ErrColumnNotFound "email")) ∧
      NewCSVEmailReader
          [csvItem.record ["name", "email"], csvItem.record ["John", "john.doe@mail.com"]]
          "email" =
        (some { reader := { FieldsPerRecord := 2,
                            pending := [csvItem.record ["John", "john.doe@mail.com"]] },
                emailColumn := 1 }, none) ∧
      (NewCSVEmailReader [csvItem.record ["name", "Email"]] "email").2 =
        some (GoError.ErrColumnNotFound "email") ∧
      (NewCSVEmailReader [csvItem.record ["name", " email"]] "email").2 =
        some (GoError.ErrColumnNotFound "email") := by
  refine ⟨?_, newCSVEmailReader_absent, ?_, by decide, by decide, by decide, by decide⟩
  · intro h rest c
    constructor
    · intro herr hc
      obtain ⟨i, hi, -⟩ := newCSVEmailReader_present h rest c hc
      rw [hi] at herr
      simp at herr
    · intro hc
      rw [newCSVEmailReader_absent h rest c hc]
  · intro h rest c hc
    obtain ⟨i, hi, hget, -⟩ := newCSVEmailReader_present h rest c hc
    exact ⟨i, hi, hget⟩

/-- C13 at the header `["id","email","name"]`: the column `"email"` is found at index 1. -/
theorem C13_column_not_found_iff_absent_witness :
    ∃ i : Nat, NewCSVEmailReader [csvItem.record ["id", "email", "name"]] "email" =
        (some { reader := { FieldsPerRecord := 3, pending := [] }, emailColumn := i }, none) ∧
      ["id", "email", "name"][i]? = some "email" :=
  C13_column_not_found_iff_absent.2.2.1 ["id", "email", "name"] [] "email" (by decide)

/-! ## Errors, empty input, panics and diagnostics -/

/-- C11: when the source returns values `vals` and then an error `e` other than `io.EOF`,
`CountEmailDomains` returns `(nil, e)` whatever was counted, and leaves the source in the
state the failing call left it in, so it made no further call; conversely, when it returns
an error, the report is nil, the error is not `io.EOF`, and the source returned it after
some values. -/
theorem C11_source_error_aborts :
    (∀ (σ : Type) (o : MapOrder) (c : domainCounter σ) (vals : List String) (stn st' : σ)
        (s : String) (e : GoError) (k : Nat),
        afterReads c.reader.ReadEmail c.reader.state vals = some stn →
        c.reader.ReadEmail stn = some ((s, some e), st') →
        e ≠ GoError.EOF →
        CountEmailDomains o (vals.length + 1 + k) c =
          some { completion := Completion.returned none (some e),
                 log := expectedDiagnostics vals,
                 reader := st' }) ∧
      (∀ (σ : Type) (o : MapOrder) (fuel : Nat) (c : domainCounter σ) (out : Outcome σ)
          (d : Option Domains) (e : GoError),
        CountEmailDomains o fuel c = some out →
        out.completion = Completion.returned d (some e) →
        d = none ∧ e ≠ GoError.EOF ∧
          ∃ (vals : List String) (stn : σ) (s : String),
            afterReads c.reader.ReadEmail c.reader.state vals = some stn ∧
            c.reader.ReadEmail stn = some ((s, some e), out.reader)) := by
  constructor
  · intro σ o c vals stn st' s e k hvals hend hne
    rw [countEmailDomains_reads o c vals stn st' s e k hvals hend]
    simp [hne]
  · intro σ o fuel c out d e h hc
    unfold CountEmailDomains at h
    split at h
    · simp at h
    · rename_i err log st hloop
      simp only [Option.some.injEq] at h
      rw [← h] at hc ⊢
      simp only [Completion.returned.injEq, Option.some.injEq] at hc
      obtain ⟨rfl, rfl⟩ := hc
      obtain ⟨hne, vals, stn, s, hv, hs⟩ := countLoop_failed _ _ _ _ _ _ _ _ _ hloop
      exact ⟨rfl, hne, vals, stn, s, hv, hs⟩
    · simp only [Option.some.injEq] at h
      rw [← h] at hc
      simp at hc
    · simp only [Option.some.injEq] at h
      rw [← h] at hc
      simp at hc

/-- C11 on a scripted source: after a valid and an invalid value the third call fails;
`CountEmailDomains` returns that error and no report, and the source has been called
three times, its fourth result unread. -/
theorem C11_source_error_aborts_witness :
    CountEmailDomains MapOrder.insertion (2 + 1 + 0)
        { reader := scriptSource [("a@x.com", none), ("bad", none),
            ("", some (GoError.other "read failed")), ("b@y.com", none)] } =
      some { completion := Completion.returned none (some (GoError.other "read failed")),
             log := expectedDiagnostics ["a@x.com", "bad"],
             reader := { calls := 3, script := [("b@y.com", none)] } } :=
  C11_source_error_aborts.1 scriptReader MapOrder.insertion
    { reader := scriptSource [("a@x.com", none), ("bad", none),
        ("", some (GoError.other "read failed")), ("b@y.com", none)] }
    ["a@x.com", "bad"] { calls := 2, script := [("", some (GoError.other "read failed")),
      ("b@y.com", none)] } { calls := 3, script := [("b@y.com", none)] } ""
    (GoError.other "read failed") 0 (by decide) (by decide) (by decide)

/-- C12: when the first `ReadEmail` call of the source signals `io.EOF`,
`CountEmailDomains` returns an empty report and no error; so it does on the empty in-memory
list, and on the reader `NewCSVEmailReader` builds over a file that holds its header only. -/
theorem C12_no_rows_empty_report :
    (∀ (σ : Type) (o : MapOrder) (c : domainCounter σ) (s : String) (st' : σ) (k : Nat),
        c.reader.ReadEmail c.reader.state = some ((s, some GoError.EOF), st') →
        CountEmailDomains o (k + 1) c =
          some { completion := Completion.returned (some []) none, log := [],
                 reader := st' }) ∧
      (∀ (o : MapOrder) (k : Nat),
        countMock o (k + 1) [] = some (Completion.returned (some []) none)) ∧
      (∀ (o : MapOrder) (k : Nat) (h : List String) (c : String) (r : csvEmailReader),
        NewCSVEmailReader [csvItem.record h] c = (some r, none) →
        (CountEmailDomains o (k + 1) { reader := r.toReader }).map Outcome.completion =
          some (Completion.returned (some []) none)) := by
  have gen : ∀ (σ : Type) (o : MapOrder) (c : domainCounter σ) (s : String) (st' : σ)
      (k : Nat), c.reader.ReadEmail c.reader.state = some ((s, some GoError.EOF), st') →
      CountEmailDomains o (k + 1) c =
        some { completion := Completion.returned (some []) none, log := [],
               reader := st' } := by
    intro σ o c s st' k h
    have := countEmailDomains_reads o c [] c.reader.state st' s GoError.EOF k rfl h
    simp only [List.length_nil, Nat.zero_add, if_true, tallyFrom, List.foldl_nil,
      mapToDomainSlice_nil] at this
    rw [Nat.add_comm k 1, this]
    rfl
  refine ⟨gen, ?_, ?_⟩
  · intro o k
    unfold countMock
    rw [gen mockEmailReader o { reader := mockReader [] } "" ⟨0, []⟩ k rfl]
    rfl
  · intro o k h c r hr
    by_cases hc : c ∈ h
    · obtain ⟨i, hi, -⟩ := newCSVEmailReader_present h [] c hc
      rw [hi] at hr
      simp only [Prod.mk.injEq, Option.some.injEq, and_true] at hr
      subst hr
      rw [gen csvEmailReader o _ "" _ k rfl]
      rfl
    · rw [newCSVEmailReader_absent h [] c hc] at hr
      simp at hr

/-- C12 on the file of the test of `ReadEmail` that holds only the header `name,email`:
the reader is built with column 1, and the count over it is empty. -/
theorem C12_no_rows_empty_report_witness :
    (CountEmailDomains MapOrder.insertion (0 + 1)
        { reader := csvEmailReader.toReader
            { reader := { FieldsPerRecord := 2, pending := [] }, emailColumn := 1 } }).map
        Outcome.completion =
      some (Completion.returned (some []) none) :=
  C12_no_rows_empty_report.2.2 MapOrder.insertion 0 ["name", "email"] "email"
    { reader := { FieldsPerRecord := 2, pending := [] }, emailColumn := 1 } (by decide)

/-- The domain of an accepted string: a non-empty run of domain characters, a dot, and two
to four lowercase letters. -/
theorem domainOf_valid {email : String} (h : IsValidEmail email = true) :
    ∃ D T : List Char, (domainOf email).data = D ++ '.' :: T ∧
      D ≠ [] ∧ (∀ c ∈ D, isDomainChar c) ∧
      (2 ≤ T.length ∧ T.length ≤ 4) ∧ (∀ c ∈ T, isLowerLetter c) := by
  obtain ⟨L, D, T, hs, -, hL, hD0, hD, hT0, hT⟩ := (isValidEmail_iff_data email).mp h
  have h1 : '@' ∉ L := fun hm => local_ne_at (hL _ hm) rfl
  refine ⟨D, T, ?_, hD0, hD, hT0, hT⟩
  unfold domainOf
  rw [hs, dropWhile_ne_append _ _ _ h1]
  rfl

theorem domainOf_valid_no_at {email : String} (h : IsValidEmail email = true) :
    '@' ∉ (domainOf email).data := by
  obtain ⟨D, T, hd, -, hD, -, hT⟩ := domainOf_valid h
  rw [hd]
  intro hm
  rcases List.mem_append.mp hm with hm | hm
  · exact local_ne_at (local_of_domain (hD _ hm)) rfl
  · rcases List.mem_cons.mp hm with hm | hm
    · exact absurd hm (by decide)
    · exact local_ne_at (local_of_lower (hT _ hm)) rfl

theorem domainOf_valid_ne_empty {email : String} (h : IsValidEmail email = true) :
    domainOf email ≠ "" := by
  obtain ⟨D, T, hd, -, -, -, -⟩ := domainOf_valid h
  intro he
  rw [he] at hd
  have := congrArg List.length hd
  simp at this
  omega

/-- C19: for every string `IsValidEmail` accepts, splitting on `"@"` yields exactly two
parts, so the element at index 1 taken in `CountEmailDomains` exists; it is the substring
after the first `@`, it is not empty and holds no `@`. Hence a call of `CountEmailDomains`
over a source that does not panic itself never panics. -/
theorem C19_domain_extraction_cannot_panic :
    (∀ s : String, IsValidEmail s = true →
        (stringsSplit s '@').length = 2 ∧
        (stringsSplit s '@')[1]? = some (domainOf s) ∧
        domainOf s ≠ "" ∧ '@' ∉ (domainOf s).data) ∧
      (∀ (σ : Type) (o : MapOrder) (fuel : Nat) (c : domainCounter σ) (out : Outcome σ),
        (∀ st, c.reader.ReadEmail st ≠ none) →
        CountEmailDomains o fuel c = some out →
        out.completion ≠ Completion.panicked) := by
  constructor
  · intro s h
    obtain ⟨l, hl⟩ := split_of_valid h
    exact ⟨by rw [hl]; rfl, split_index_of_valid h, domainOf_valid_ne_empty h,
      domainOf_valid_no_at h⟩
  · intro σ o fuel c out hrd h hc
    unfold CountEmailDomains at h
    split at h
    · simp at h
    · simp only [Option.some.injEq] at h
      rw [← h] at hc
      simp at hc
    · rename_i log st hloop
      exact countLoop_no_panic _ hrd _ _ _ _ _ _ _ hloop
    · simp only [Option.some.injEq] at h
      rw [← h] at hc
      simp at hc

/-- C19 at `"host@gmail.com"`: two parts, the second being `gmail.com`. -/
theorem C19_domain_extraction_cannot_panic_witness :
    IsValidEmail "host@gmail.com" = true ∧
      stringsSplit "host@gmail.com" '@' = ["host", "gmail.com"] ∧
      (stringsSplit "host@gmail.com" '@').length = 2 ∧
      (stringsSplit "host@gmail.com" '@')[1]? = some (domainOf "host@gmail.com") ∧
      domainOf "host@gmail.com" ≠ "" ∧ '@' ∉ (domainOf "host@gmail.com").data :=
  ⟨by decide, by decide, C19_domain_extraction_cannot_panic.1 "host@gmail.com" (by decide)⟩

theorem expectedDiagnosticsFrom_emails (vals : List String) :
    ∀ n : Nat, (expectedDiagnosticsFrom n vals).map Diagnostic.email =
      vals.filter fun e => !IsValidEmail e := by
  induction vals with
  | nil => intro n; rfl
  | cons v vs ih =>
    intro n
    have ih' := ih (n + 1)
    unfold expectedDiagnosticsFrom at ih' ⊢
    rw [List.enumFrom_cons, List.filterMap_cons]
    by_cases hv : IsValidEmail v = true
    · simp only [hv, if_true, Bool.not_true]
      rw [List.filter_cons_of_neg (by simp [hv]), ih']
    · simp only [hv, Bool.false_eq_true, if_false]
      rw [List.filter_cons_of_pos (by simp [hv]), List.map_cons, ih']

theorem mem_expectedDiagnostics (vals : List String) (p : Nat) (e : String)
    (hp : vals[p]? = some e) (hv : IsValidEmail e = false) :
    ({ line := ((p + 1 : Nat) : Int) + 1, email := e } : Diagnostic) ∈
      expectedDiagnostics vals := by
  unfold expectedDiagnostics expectedDiagnosticsFrom
  rw [List.mem_filterMap]
  refine ⟨(p, e), ?_, by simp [hv]⟩
  have := (List.mk_add_mem_enumFrom_iff_getElem? (n := 0) (i := p) (x := e) (l := vals)).mpr hp
  simpa using this

/-- C20: over the in-memory source of any list, and over any source that returns the
values `vals` before its first error, `CountEmailDomains` logs exactly the expected
diagnostics: one for each value `IsValidEmail` rejects, in input order, the value at
1-based position `p` among all values read being reported with row index `p + 1`; so a
rejected first row is reported as row 2, and accepted rows advance the index. -/
theorem C20_one_diagnostic_per_invalid_row :
    (∀ (o : MapOrder) (emails : List String) (k : Nat), ∃ out : Outcome mockEmailReader,
        CountEmailDomains o (emails.length + 1 + k) { reader := mockReader emails } =
          some out ∧
        out.log = expectedDiagnostics emails) ∧
      (∀ (σ : Type) (o : MapOrder) (c : domainCounter σ) (vals : List String) (stn st' : σ)
          (s : String) (e : GoError) (k : Nat),
        afterReads c.reader.ReadEmail c.reader.state vals = some stn →
        c.reader.ReadEmail stn = some ((s, some e), st') →
        ∃ out : Outcome σ, CountEmailDomains o (vals.length + 1 + k) c = some out ∧
          out.log = expectedDiagnostics vals) ∧
      (∀ emails : List String,
        (expectedDiagnostics emails).map Diagnostic.email =
          emails.filter fun e => !IsValidEmail e) ∧
      (∀ (emails : List String) (p : Nat) (e : String),
        emails[p]? = some e → IsValidEmail e = false →
        ({ line := ((p + 1 : Nat) : Int) + 1, email := e } : Diagnostic) ∈
          expectedDiagnostics emails) ∧
      expectedDiagnostics ["bad", "a@x.com", "b@y.com", "worse"] =
        [{ line := 2, email := "bad" }, { line := 5, email := "worse" }] := by
  refine ⟨?_, ?_, ?_, mem_expectedDiagnostics, by decide⟩
  · intro o emails k
    exact ⟨_, countEmailDomains_mock o emails k, diagnosticsFrom_two emails⟩
  · intro σ o c vals stn st' s e k hvals hend
    exact ⟨_, countEmailDomains_reads o c vals stn st' s e k hvals hend, rfl⟩
  · intro emails
    exact expectedDiagnosticsFrom_emails emails 0

/-- C20 on a csv file with header `name,email` and three rows, the second with a bad
address: the reader built by `NewCSVEmailReader` returns the three values and then
`io.EOF`, and the count logs the bad address with row index 3. -/
theorem C20_one_diagnostic_per_invalid_row_witness :
    ∃ out : Outcome csvEmailReader,
      CountEmailDomains MapOrder.insertion (3 + 1 + 0)
          { reader := csvEmailReader.toReader
              { reader := { FieldsPerRecord := 2,
                            pending := [csvItem.record ["Ann", "ann@x.com"],
                              csvItem.record ["Bob", "bob"],
                              csvItem.record ["Cy", "cy@y.org"]] },
                emailColumn := 1 } } = some out ∧
        out.log = expectedDiagnostics ["ann@x.com", "bob", "cy@y.org"] :=
  C20_one_diagnostic_per_invalid_row.2.1 csvEmailReader MapOrder.insertion
    { reader := csvEmailReader.toReader
        { reader := { FieldsPerRecord := 2,
                      pending := [csvItem.record ["Ann", "ann@x.com"],
                        csvItem.record ["Bob", "bob"],
                        csvItem.record ["Cy", "cy@y.org"]] },
          emailColumn := 1 } }
    ["ann@x.com", "bob", "cy@y.org"]
    { reader := { FieldsPerRecord := 2, pending := [] }, emailColumn := 1 }
    { reader := { FieldsPerRecord := 2, pending := [] }, emailColumn := 1 }
    "" GoError.EOF 0 (by decide) (by decide)

/-! ## The writers -/

theorem isValidFormatType_iff (f : String) :
    IsValidFormatType f = false ↔ f ≠ "yaml" ∧ f ≠ "json" := by
  unfold IsValidFormatType YAML JSON
  by_cases hy : f = "yaml"
  · simp [hy]
  · by_cases hj : f = "json"
    · simp [hj]
    · simp [hy, hj]

theorem writeTo_unsupported_iff (d : Domains) (w : Writer) (f : String) :
    (d.WriteTo (some w) f).1 = some (GoError.ErrUnsupportedFormatType f) ↔
      f ≠ "yaml" ∧ f ≠ "json" := by
  unfold Domains.WriteTo YAML JSON
  by_cases hy : f = "yaml"
  · simp only [hy, if_true, ne_eq, not_true_eq_false, false_and, iff_false]
    unfold Domains.writeYAML
    split <;> simp
  · by_cases hj : f = "json"
    · simp only [hj, if_true, ne_eq, not_true_eq_false, and_false, iff_false]
      have : ¬ ("json" : String) = "yaml" := by decide
      simp only [this, if_false]
      unfold Domains.writeJSON
      split <;> simp
    · simp [hy, hj]

/-- C14: for every report, every non-nil sink and every format `f`, `WriteTo` returns
`ErrUnsupportedFormatType` carrying `f` exactly when `f` is neither `"yaml"` nor `"json"`,
which is exactly when `IsValidFormatType f` is false; `IsValidFormatType` holds of
`"json"` and `"yaml"` and not of `"csv"`, nor of `"JSON"`. -/
theorem C14_unsupported_format_iff :
    (∀ (d : Domains) (w : Writer) (f : String),
        (d.WriteTo (some w) f).1 = some (GoError.ErrUnsupportedFormatType f) ↔
          f ≠ "yaml" ∧ f ≠ "json") ∧
      (∀ (d : Domains) (w : Writer) (f : String),
        (d.WriteTo (some w) f).1 = some (GoError.ErrUnsupportedFormatType f) ↔
          IsValidFormatType f = false) ∧
      (∀ (d : Domains) (w : Writer) (f : String), f ≠ "yaml" → f ≠ "json" →
        d.WriteTo (some w) f = (some (GoError.ErrUnsupportedFormatType f), some w)) ∧
      IsValidFormatType "json" = true ∧
      IsValidFormatType "yaml" = true ∧
      IsValidFormatType "csv" = false ∧
      IsValidFormatType "JSON" = false := by
  refine ⟨writeTo_unsupported_iff, ?_, ?_, by decide, by decide, by decide, by decide⟩
  · intro d w f
    rw [writeTo_unsupported_iff, isValidFormatType_iff]
  · intro d w f hy hj
    simp [Domains.WriteTo, YAML, JSON, hy, hj]

/-- C14 on the case of the test: the format `"csv"` on a buffer that holds `x` is refused
with `ErrUnsupportedFormatType{"csv"}`, and the buffer is left as it was. -/
theorem C14_unsupported_format_iff_witness :
    Domains.WriteTo [⟨"mail.com", 2⟩] (some { written := "x", failure := none }) "csv" =
      (some (GoError.ErrUnsupportedFormatType "csv"),
        some { written := "x", failure := none }) :=
  C14_unsupported_format_iff.2.2.1 [⟨"mail.com", 2⟩] { written := "x", failure := none } "csv"
    (by decide) (by decide)

/-- C15: for every report and every format, supported or not, `WriteTo` on a nil sink
returns `ErrWriterIsNil`, and there is no sink anything was written to; the formats
`"json"` of the test and `"csv"` are examples. -/
theorem C15_nil_sink_refused :
    (∀ (d : Domains) (f : String),
        d.WriteTo none f = (some GoError.ErrWriterIsNil, none)) ∧
      Domains.WriteTo [⟨"mail.com", 2⟩] none "json" = (some GoError.ErrWriterIsNil, none) ∧
      Domains.WriteTo [⟨"mail.com", 2⟩] none "csv" = (some GoError.ErrWriterIsNil, none) :=
  ⟨fun _ _ => rfl, rfl, rfl⟩

theorem char_le_iff_toNat (a b : Char) : a ≤ b ↔ a.toNat ≤ b.toNat := Iff.rfl

theorem char_ne_of_toNat {c x : Char} (h : c.toNat ≠ x.toNat) : c ≠ x :=
  fun e => h (congrArg Char.toNat e)

theorem toNat_of_domainChar {c : Char} (h : isDomainChar c) :
    (97 ≤ c.toNat ∧ c.toNat ≤ 122) ∨ (48 ≤ c.toNat ∧ c.toNat ≤ 57) ∨ c.toNat = 46 ∨
      c.toNat = 45 := by
  rcases h with ⟨h1, h2⟩ | ⟨h1, h2⟩ | rfl | rfl
  · exact Or.inl ⟨(char_le_iff_toNat 'a' c).mp h1, (char_le_iff_toNat c 'z').mp h2⟩
  · exact Or.inr (Or.inl ⟨(char_le_iff_toNat '0' c).mp h1, (char_le_iff_toNat c '9').mp h2⟩)
  · exact Or.inr (Or.inr (Or.inl rfl))
  · exact Or.inr (Or.inr (Or.inr rfl))

/-- The encoder writes a rune of a domain as it is. -/
theorem jsonEscapeRune_domainChar {c : Char} (h : isDomainChar c) : jsonEscapeRune c = [c] := by
  have hn := toNat_of_domainChar h
  have ne : ∀ x : Char, (x.toNat < 45 ∨ x.toNat = 47 ∨ (57 < x.toNat ∧ x.toNat < 97) ∨
      122 < x.toNat) → c ≠ x := by
    intro x hx
    apply char_ne_of_toNat
    omega
  have h1 := ne '"' (by decide)
  have h2 := ne '\\' (by decide)
  have h3 := ne '\n' (by decide)
  have h4 := ne '\r' (by decide)
  have h5 := ne '\t' (by decide)
  have h6 := ne '<' (by decide)
  have h7 := ne '>' (by decide)
  have h8 := ne '&' (by decide)
  have h9 : ¬ c.toNat < 32 := by omega
  have h10 : ¬ c.toNat = 0x2028 := by omega
  have h11 : ¬ c.toNat = 0x2029 := by omega
  simp [jsonEscapeRune, jsonHexEscaped, h1, h2, h3, h4, h5, h6, h7, h8, h9, h10, h11]

theorem jsonString_plain {s : String} (h : ∀ c ∈ s.data, isDomainChar c) :
    jsonString s = '"' :: (s.data ++ ['"']) := by
  unfold jsonString
  have key : ∀ l : List Char, (∀ c ∈ l, isDomainChar c) →
      (l.map jsonEscapeRune).flatten = l := by
    intro l
    induction l with
    | nil => intro _; rfl
    | cons c cs ih =>
      intro hl
      simp [jsonEscapeRune_domainChar (hl c (List.mem_cons_self _ _)),
        ih fun x hx => hl x (List.mem_cons_of_mem _ hx)]
  rw [key _ h]

theorem domainChars_of_valid {e : String} (h : IsValidEmail e = true) :
    ∀ c ∈ (domainOf e).data, isDomainChar c := by
  obtain ⟨D, T, hd, -, hD, -, hT⟩ := domainOf_valid h
  intro c hc
  rw [hd] at hc
  rcases List.mem_append.mp hc with hc | hc
  · exact hD c hc
  · rcases List.mem_cons.mp hc with rfl | hc
    · exact Or.inr (Or.inr (Or.inl rfl))
    · exact Or.inl (hT c hc)

theorem jsonElements_eq (d : Domains) :
    jsonElements d = List.intercalate [','] (d.map jsonDomain) := by
  induction d with
  | nil => rfl
  | cons r rest ih =>
    cases rest with
    | nil => simp [jsonElements, List.intercalate]
    | cons r' rest' =>
      show jsonDomain r ++ ',' :: jsonElements (r' :: rest') = _
      rw [ih]
      simp [List.intercalate, List.intersperse]

theorem jsonDomain_plain {r : Domain} (h : ∀ c ∈ r.Name.data, isDomainChar c) :
    jsonDomain r = claimedJSONRecord r := by
  unfold jsonDomain claimedJSONRecord
  rw [jsonString_plain h]
  have h1 : jsonNameKey = "\x7b\"Name\":".data := rfl
  have h2 : jsonCountKey = ",\"Occurences\":".data := rfl
  have h3 : "\x7b\"Name\":\"".data = "\x7b\"Name\":".data ++ ['"'] := by decide
  have h4 : "\",\"Occurences\":".data = '"' :: ",\"Occurences\":".data := by decide
  have h5 : "\x7d".data = ['\x7d'] := by decide
  rw [h1, h2, h3, h4, h5]
  simp

theorem jsonText_plain {d : Domains} (h : NamesOfValidEmails d) :
    jsonText d = claimedJSONText d := by
  unfold jsonText claimedJSONText
  rw [jsonElements_eq]
  have hmap : d.map jsonDomain = d.map claimedJSONRecord := by
    apply List.map_congr_left
    intro r hr
    obtain ⟨e, he, hn⟩ := h r hr
    apply jsonDomain_plain
    rw [hn]
    exact domainChars_of_valid he
  rw [hmap]
  have h1 : "[".data = ['['] := by decide
  have h2 : "]".data = [']'] := by decide
  have h3 : "\n".data = ['\n'] := by decide
  have h4 : ",".data = [','] := by decide
  rw [h1, h2, h3, h4]
  simp

/-- C16: for every report whose names are domains of accepted addresses, `WriteTo` with
format `"json"` (and `writeJSON`) appends to the sink the text `[`, the records in report
order joined by `,`, `]` and one newline, each record written
`\x7b"Name":"<name>","Occurences":<count>\x7d`, and returns no error; the report
`[{mail.com,2},{gmail.com,1}]` of the test is written as the test expects. -/
theorem C16_json_output :
    (∀ (d : Domains) (pre : String), NamesOfValidEmails d →
        d.WriteTo (some { written := pre, failure := none }) "json" =
            (none, some { written := pre ++ String.mk (claimedJSONText d), failure := none }) ∧
          d.writeJSON { written := pre, failure := none } =
            (none, { written := pre ++ String.mk (claimedJSONText d), failure := none })) ∧
      Domains.WriteTo [⟨"mail.com", 2⟩, ⟨"gmail.com", 1⟩]
          (some { written := "", failure := none }) "json" =
        (none, some ⟨"[\x7b\"Name\":\"mail.com\",\"Occurences\":2\x7d," ++
          "\x7b\"Name\":\"gmail.com\",\"Occurences\":1\x7d]\n", none⟩) := by
  refine ⟨?_, by decide⟩
  intro d pre h
  have hw : d.writeJSON { written := pre, failure := none } =
      (none, { written := pre ++ String.mk (claimedJSONText d), failure := none }) := by
    simp [Domains.writeJSON, Writer.Write, jsonText_plain h]
  refine ⟨?_, hw⟩
  have hne : ¬ ("json" : String) = "yaml" := by decide
  simp only [Domains.WriteTo, YAML, JSON, hne, if_false, if_true, hw]

/-- C16 on the report counted from three addresses: its names are domains of accepted
addresses, and it is written as the claim says. -/
theorem C16_json_output_witness :
    Domains.WriteTo [⟨"x.com", 2⟩, ⟨"y-z.org", 1⟩]
        (some { written := "", failure := none }) "json" =
      (none, some { written := "" ++ String.mk (claimedJSONText [⟨"x.com", 2⟩, ⟨"y-z.org", 1⟩]),
                    failure := none }) :=
  (C16_json_output.1 [⟨"x.com", 2⟩, ⟨"y-z.org", 1⟩] ""
    (by
      intro r hr
      simp only [List.mem_cons, List.mem_singleton, List.not_mem_nil, or_false] at hr
      rcases hr with rfl | rfl
      · exact ⟨"a@x.com", by decide, by decide⟩
      · exact ⟨"b@y-z.org", by decide, by decide⟩)).1

/-- C18, as stated, fails: `-.inf` is the domain of the accepted address `a@-.inf`, and the
report `[{-.inf,1}]` is written with the name between double quotes, not as the block
`- name: -.inf` of the claim. -/
theorem C18_yaml_output_counterexample :
    NamesOfValidEmails [⟨"-.inf", 1⟩] ∧
      Domains.WriteTo [⟨"-.inf", 1⟩] (some { written := "", failure := none }) "yaml" =
        (none, some { written := "- name: \"-.inf\"\n  occurences: 1\n", failure := none }) ∧
      String.mk (claimedYAMLText [⟨"-.inf", 1⟩]) = "- name: -.inf\n  occurences: 1\n" ∧
      Domains.WriteTo [⟨"-.inf", 1⟩] (some { written := "", failure := none }) "yaml" ≠
        (none, some { written := "" ++ String.mk (claimedYAMLText [⟨"-.inf", 1⟩]),
                      failure := none }) := by
  refine ⟨?_, by decide, by decide, by decide⟩
  intro r hr
  rw [List.mem_singleton.mp hr]
  exact ⟨"a@-.inf", by decide, by decide⟩

theorem yamlString_plain {s : String} (h : yamlPlainName s = true) : yamlString s = s.data := by
  unfold yamlPlainName at h
  simp only [Bool.and_eq_true, Bool.not_eq_true', decide_eq_false_iff_not] at h
  simp [yamlString, h.1, h.2]

theorem yamlText_plain {d : Domains} (hne : d ≠ [])
    (hp : ∀ r ∈ d, yamlPlainName r.Name = true) : yamlText d = claimedYAMLText d := by
  unfold yamlText claimedYAMLText
  have hmap : d.map yamlDomain = d.map claimedYAMLBlock := by
    apply List.map_congr_left
    intro r hr
    unfold yamlDomain claimedYAMLBlock
    rw [yamlString_plain (hp r hr)]
  cases d with
  | nil => exact absurd rfl hne
  | cons r rest => simp only [hmap]

/-- C18, amended: for every non-empty report whose names are domains of accepted
addresses, none of them `-.inf` and none beginning with `---` or `...`, `WriteTo` with
format `"yaml"` (and `writeYAML`) appends to the sink, in report order, one block
`- name: <name>`, newline, two blanks, `occurences: <count>`, newline, for each record,
and returns no error. -/
theorem C18_yaml_output_plain_names (d : Domains) (pre : String) (hne : d ≠ [])
    (hv : NamesOfValidEmails d) (hp : ∀ r ∈ d, yamlPlainName r.Name = true) :
    d.WriteTo (some { written := pre, failure := none }) "yaml" =
        (none, some { written := pre ++ String.mk (claimedYAMLText d), failure := none }) ∧
      d.writeYAML { written := pre, failure := none } =
        (none, { written := pre ++ String.mk (claimedYAMLText d), failure := none }) := by
  have _ := hv
  have hw : d.writeYAML { written := pre, failure := none } =
      (none, { written := pre ++ String.mk (claimedYAMLText d), failure := none }) := by
    simp [Domains.writeYAML, Writer.Write, yamlText_plain hne hp]
  refine ⟨?_, hw⟩
  simp only [Domains.WriteTo, YAML, if_true, hw]

/-- C18, amended, on the report of the test: `[{mail.com,2},{gmail.com,1}]` is written as
the two blocks the test expects. -/
theorem C18_yaml_output_plain_names_witness :
    Domains.WriteTo [⟨"mail.com", 2⟩, ⟨"gmail.com", 1⟩]
          (some { written := "", failure := none }) "yaml" =
        (none,
          some ⟨"" ++ String.mk (claimedYAMLText [⟨"mail.com", 2⟩, ⟨"gmail.com", 1⟩]), none⟩) ∧
      String.mk (claimedYAMLText [⟨"mail.com", 2⟩, ⟨"gmail.com", 1⟩]) =
        "- name: mail.com\n  occurences: 2\n- name: gmail.com\n  occurences: 1\n" :=
  ⟨(C18_yaml_output_plain_names [⟨"mail.com", 2⟩, ⟨"gmail.com", 1⟩] "" (by decide)
      (by
        intro r hr
        simp only [List.mem_cons, List.mem_singleton, List.not_mem_nil, or_false] at hr
        rcases hr with rfl | rfl
        · exact ⟨"a@mail.com", by decide, by decide⟩
        · exact ⟨"b@gmail.com", by decide, by decide⟩)
      (by decide)).1, by decide⟩

/-! ## Reading the JSON text back -/

theorem expect_append (lit rest : List Char) : expect lit (lit ++ rest) = some rest := by
  induction lit with
  | nil => cases rest <;> rfl
  | cons c cs ih => simp [expect, ih]

theorem hexValue_hexDigit (d : Nat) (h : d < 16) : hexValue (hexDigit d) = some d := by
  interval_cases d <;> decide

theorem toNat_of_hexEscaped {c : Char} (h : jsonHexEscaped c = true) :
    c.toNat < 32 ∨ c.toNat = 60 ∨ c.toNat = 62 ∨ c.toNat = 38 ∨ c.toNat = 0x2028 ∨
      c.toNat = 0x2029 := by
  unfold jsonHexEscaped at h
  simp only [Bool.or_eq_true, decide_eq_true_eq, beq_iff_eq] at h
  rcases h with ((((h | h) | h) | h) | h) | h
  · exact Or.inl h
  · exact Or.inr (Or.inl (by rw [h]; rfl))
  · exact Or.inr (Or.inr (Or.inl (by rw [h]; rfl)))
  · exact Or.inr (Or.inr (Or.inr (Or.inl (by rw [h]; rfl))))
  · exact Or.inr (Or.inr (Or.inr (Or.inr (Or.inl h))))
  · exact Or.inr (Or.inr (Or.inr (Or.inr (Or.inr h))))

/-- Reading what the encoder wrote for one rune gives that rune. -/
theorem parseJSONString_rune (c : Char) (t acc : List Char) :
    parseJSONString (jsonEscapeRune c ++ t) acc = parseJSONString t (c :: acc) := by
  unfold jsonEscapeRune
  split
  · rename_i h
    subst h
    rw [List.cons_append, List.cons_append, List.nil_append, parseJSONString.eq_def]
    simp [jsonUnescape]
  split
  · rename_i h
    subst h
    rw [List.cons_append, List.cons_append, List.nil_append, parseJSONString.eq_def]
    simp [jsonUnescape]
  split
  · rename_i h
    subst h
    rw [List.cons_append, List.cons_append, List.nil_append, parseJSONString.eq_def]
    simp [jsonUnescape]
  split
  · rename_i h
    subst h
    rw [List.cons_append, List.cons_append, List.nil_append, parseJSONString.eq_def]
    simp [jsonUnescape]
  split
  · rename_i h
    subst h
    rw [List.cons_append, List.cons_append, List.nil_append, parseJSONString.eq_def]
    simp [jsonUnescape]
  split
  · rename_i hesc
    have hn := toNat_of_hexEscaped hesc
    have h3 := hexValue_hexDigit (c.toNat / 4096 % 16) (Nat.mod_lt _ (by decide))
    have h2 := hexValue_hexDigit (c.toNat / 256 % 16) (Nat.mod_lt _ (by decide))
    have h1 := hexValue_hexDigit (c.toNat / 16 % 16) (Nat.mod_lt _ (by decide))
    have h0 := hexValue_hexDigit (c.toNat % 16) (Nat.mod_lt _ (by decide))
    have hval : ((c.toNat / 4096 % 16 * 16 + c.toNat / 256 % 16) * 16 + c.toNat / 16 % 16) * 16
        + c.toNat % 16 = c.toNat := by omega
    have hsur : ¬ (0xD800 ≤ c.toNat ∧ c.toNat < 0xE000) := by omega
    have e1 : ¬ ('\\' : Char) = '"' := by decide
    have e2 : ('u' : Char) = 'u' := rfl
    rw [parseJSONString.eq_def]
    simp only [List.cons_append, List.nil_append, e1, if_false, if_true, h3, h2,
      h1, h0, hval, hsur, Char.ofNat_toNat]
  · rename_i n1 n2 n3 n4 n5 nesc
    have hlow : ¬ c.toNat < 32 := by
      intro h
      apply nesc
      simp [jsonHexEscaped, h]
    rw [List.cons_append, List.nil_append, parseJSONString.eq_def]
    simp [n1, n2, hlow]

theorem parseJSONString_escaped (s : List Char) :
    ∀ (acc rest : List Char),
      parseJSONString ((s.map jsonEscapeRune).flatten ++ '"' :: rest) acc =
        some (String.mk (acc.reverse ++ s), rest) := by
  induction s with
  | nil =>
    intro acc rest
    rw [List.map_nil, List.flatten_nil, List.nil_append, parseJSONString.eq_def]
    simp
  | cons c cs ih =>
    intro acc rest
    rw [List.map_cons, List.flatten_cons, List.append_assoc, parseJSONString_rune, ih]
    simp

theorem isDigitRune_digitChar (d : Nat) (h : d < 10) :
    isDigitRune (digitChar d) = true ∧ (digitChar d).toNat - 48 = d ∧ digitChar d ≠ '-' := by
  interval_cases d <;> decide

theorem decimalAux_head (fuel : Nat) :
    ∀ (n : Nat) (t : List Char), n < fuel →
      ∃ c cs, decimalAux fuel n t = c :: cs ∧ isDigitRune c = true ∧ c ≠ '-' := by
  induction fuel with
  | zero => intro n t h; omega
  | succ f ih =>
    intro n t h
    rw [decimalAux]
    split
    · rename_i hlt
      exact ⟨_, _, rfl, (isDigitRune_digitChar n hlt).1, (isDigitRune_digitChar n hlt).2.2⟩
    · exact ih _ _ (by omega)

theorem parseDigits_decimalAux (fuel : Nat) :
    ∀ (n : Nat) (t : List Char), n < fuel →
      parseDigits 0 (decimalAux fuel n t) = parseDigits n t := by
  induction fuel with
  | zero => intro n t h; omega
  | succ f ih =>
    intro n t h
    rw [decimalAux]
    split
    · rename_i hlt
      have hd := isDigitRune_digitChar n hlt
      simp [parseDigits, hd.1, hd.2.1]
    · rw [ih _ _ (by omega)]
      have hd := isDigitRune_digitChar (n % 10) (Nat.mod_lt _ (by decide))
      simp only [parseDigits, hd.1, if_true, hd.2.1]
      congr 1
      omega

theorem decimalAux_append (fuel : Nat) :
    ∀ (n : Nat) (t : List Char), decimalAux fuel n t = decimalAux fuel n [] ++ t := by
  induction fuel with
  | zero => intro n t; rfl
  | succ f ih =>
    intro n t
    rw [decimalAux, decimalAux]
    split
    · rfl
    · rw [ih _ (digitChar (n % 10) :: t), ih _ [digitChar (n % 10)]]
      simp

theorem parseDigits_end (n : Nat) (rest : List Char)
    (h : ∀ c cs, rest = c :: cs → isDigitRune c = false) : parseDigits n rest = (n, rest) := by
  cases rest with
  | nil => rfl
  | cons c cs => simp [parseDigits, h c cs rfl]

theorem parseJSONNat_decimal (n : Nat) (rest : List Char)
    (h : ∀ c cs, rest = c :: cs → isDigitRune c = false) :
    parseJSONNat (decimalAux (n + 1) n [] ++ rest) = some (n, rest) := by
  rw [← decimalAux_append]
  obtain ⟨c, cs, hc, hd, -⟩ := decimalAux_head (n + 1) n rest (by omega)
  have hp := parseDigits_decimalAux (n + 1) n rest (by omega)
  rw [hc] at hp ⊢
  simp only [parseJSONNat, hd, if_true, hp, parseDigits_end n rest h]

/-- Reading the decimal form of an integer gives the integer. -/
theorem parseJSONInt_decimal (n : Int) (rest : List Char)
    (h : ∀ c cs, rest = c :: cs → isDigitRune c = false) :
    parseJSONInt (decimal n ++ rest) = some (n, rest) := by
  unfold decimal
  by_cases hn : n < 0
  · simp only [hn, if_true, List.cons_append, parseJSONInt, parseJSONNat_decimal _ rest h]
    congr 2
    omega
  · simp only [hn, if_false]
    obtain ⟨c, cs, hc, -, hm⟩ := decimalAux_head (n.natAbs + 1) n.natAbs rest (by omega)
    have hp := parseJSONNat_decimal n.natAbs rest h
    rw [← decimalAux_append] at hp ⊢
    rw [hc] at hp ⊢
    simp only [parseJSONInt, hm, if_false, hp]
    congr 2
    omega

/-- Reading the encoding of a record gives the record. -/
theorem parseJSONDomain_jsonDomain (r : Domain) (rest : List Char) :
    parseJSONDomain (jsonDomain r ++ rest) = some (r, rest) := by
  have hshape : jsonDomain r ++ rest =
      (jsonNameKey ++ ['"']) ++ ((r.Name.data.map jsonEscapeRune).flatten ++
        '"' :: (jsonCountKey ++ (decimal r.Occurences ++ ['\x7d'] ++ rest))) := by
    simp [jsonDomain, jsonString]
  have hend : ∀ c cs, ['\x7d'] ++ rest = c :: cs → isDigitRune c = false := by
    intro c cs hc
    simp only [List.cons_append, List.nil_append, List.cons.injEq] at hc
    rw [← hc.1]
    decide
  rw [hshape]
  unfold parseJSONDomain
  rw [expect_append]
  simp only [parseJSONString_escaped, expect_append, List.append_assoc,
    parseJSONInt_decimal _ _ hend, List.reverse_nil, List.nil_append]

theorem jsonDomain_head (r : Domain) :
    ∃ cs, jsonDomain r = '\x7b' :: cs := by
  unfold jsonDomain
  exact ⟨_, rfl⟩

theorem length_le_jsonElements (d : Domains) : d.length ≤ (jsonElements d).length := by
  induction d with
  | nil => simp [jsonElements]
  | cons r rest ih =>
    obtain ⟨cs, hcs⟩ := jsonDomain_head r
    cases rest with
    | nil => simp [jsonElements, hcs]
    | cons r' rest' =>
      have : jsonElements (r :: r' :: rest') =
          jsonDomain r ++ ',' :: jsonElements (r' :: rest') := rfl
      rw [this]
      simp only [List.length_append, List.length_cons] at ih ⊢
      omega

/-- Reading the elements the encoder wrote gives the records. -/
theorem parseJSONElements_jsonElements (d : Domains) :
    ∀ (fuel : Nat) (rest : List Char), d ≠ [] → d.length ≤ fuel →
      (∀ c cs, rest = c :: cs → c ≠ ',') →
      parseJSONElements fuel (jsonElements d ++ rest) = some (d, rest) := by
  induction d with
  | nil => intro fuel rest h; exact absurd rfl h
  | cons r rs ih =>
    intro fuel rest _ hfuel hrest
    obtain ⟨f, rfl⟩ : ∃ f, fuel = f + 1 := ⟨fuel - 1, by simp at hfuel; omega⟩
    cases rs with
    | nil =>
      have : jsonElements [r] = jsonDomain r := rfl
      rw [this, parseJSONElements, parseJSONDomain_jsonDomain]
      cases rest with
      | nil => rfl
      | cons c cs => simp [hrest c cs rfl]
    | cons r' rs' =>
      have : jsonElements (r :: r' :: rs') =
          jsonDomain r ++ ',' :: jsonElements (r' :: rs') := rfl
      rw [this, List.append_assoc, parseJSONElements, parseJSONDomain_jsonDomain]
      have hf : (r' :: rs').length ≤ f := by simp at hfuel ⊢; omega
      simp [ih f rest (by simp) hf hrest]

/-- Reading the text the encoder wrote gives the report. -/
theorem parseJSON_jsonText (d : Domains) : parseJSON (String.mk (jsonText d)) = some d := by
  unfold parseJSON jsonText
  have he : expect ['['] ('[' :: (jsonElements d ++ [']', '\n'])) =
      some (jsonElements d ++ [']', '\n']) := expect_append ['['] _
  simp only [he]
  cases d with
  | nil => simp [jsonElements]
  | cons r rs =>
    have hhead : ∃ cs, jsonElements (r :: rs) = '\x7b' :: cs := by
      obtain ⟨cs, hcs⟩ := jsonDomain_head r
      cases rs with
      | nil => exact ⟨cs, hcs⟩
      | cons r' rs' =>
        exact ⟨cs ++ ',' :: jsonElements (r' :: rs'), by
          show jsonDomain r ++ ',' :: jsonElements (r' :: rs') = _
          rw [hcs]; rfl⟩
    obtain ⟨cs, hcs⟩ := hhead
    have hne : ¬ (jsonElements (r :: rs) ++ [']', '\n'] = [']', '\n'] ∨
        jsonElements (r :: rs) ++ [']', '\n'] = [']']) := by
      rw [hcs]
      simp
    have hfuel : (r :: rs).length ≤ (jsonElements (r :: rs) ++ [']', '\n']).length := by
      have := length_le_jsonElements (r :: rs)
      simp only [List.length_append] at *
      omega
    have hparse := parseJSONElements_jsonElements (r :: rs) _ [']', '\n'] (by simp) hfuel
      (by
        intro c cs' hc
        simp only [List.cons.injEq] at hc
        rw [← hc.1]
        decide)
    simp only [hne, if_false, hparse]
    simp

theorem writeJSON_written (d : Domains) (pre : String) :
    d.writeJSON { written := pre, failure := none } =
      (none, { written := pre ++ String.mk (jsonText d), failure := none }) := by
  simp [Domains.writeJSON, Writer.Write]

theorem empty_append_mk (l : List Char) : "" ++ String.mk l = String.mk l := by
  apply String.ext
  simp

/-- C17: for every report, reading back the text `writeJSON` wrote into an empty buffer
gives the records of the report, the same names and counts in the same order; so it is for
`WriteTo` with format `"json"`, and for the text of the test, read with and without the
newline that ends it. -/
theorem C17_json_round_trip :
    (∀ d : Domains,
        (d.writeJSON { written := "", failure := none }).1 = none ∧
        parseJSON (d.writeJSON { written := "", failure := none }).2.written = some d) ∧
      (∀ d : Domains, ∃ w : Writer,
        d.WriteTo (some { written := "", failure := none }) "json" = (none, some w) ∧
        parseJSON w.written = some d) ∧
      parseJSON ("[\x7b\"Name\":\"mail.com\",\"Occurences\":2\x7d," ++
          "\x7b\"Name\":\"gmail.com\",\"Occurences\":1\x7d]\n") =
        some [⟨"mail.com", 2⟩, ⟨"gmail.com", 1⟩] ∧
      parseJSON ("[\x7b\"Name\":\"mail.com\",\"Occurences\":2\x7d," ++
          "\x7b\"Name\":\"gmail.com\",\"Occurences\":1\x7d]") =
        some [⟨"mail.com", 2⟩, ⟨"gmail.com", 1⟩] := by
  refine ⟨?_, ?_, by decide, by decide⟩
  · intro d
    rw [writeJSON_written]
    exact ⟨rfl, by rw [empty_append_mk]; exact parseJSON_jsonText d⟩
  · intro d
    refine ⟨{ written := "" ++ String.mk (jsonText d), failure := none }, ?_, ?_⟩
    · have hne : ¬ ("json" : String) = "yaml" := by decide
      simp only [Domains.WriteTo, YAML, JSON, hne, if_false, if_true, writeJSON_written]
    · rw [empty_append_mk]
      exact parseJSON_jsonText d


/-! ## A column name that stands twice in the header -/

/-- On a row of the expected length, `ReadEmail` returns the field at `emailColumn` and
keeps the column. -/
theorem csvReadEmail_row (n i : Nat) (row : List String) (rest : List csvItem)
    (hlen : row.length = n) (hi : i < n) :
    ∃ email : String, row[i]? = some email ∧
      csvEmailReader.ReadEmail
          { reader := { FieldsPerRecord := n, pending := csvItem.record row :: rest },
            emailColumn := i } =
        some ((email, none),
          { reader := { FieldsPerRecord := n, pending := rest }, emailColumn := i }) := by
  have hlt : i < row.length := by omega
  refine ⟨row[i], List.getElem?_eq_getElem hlt, ?_⟩
  have hpos : (n : Int) > 0 := by omega
  have hneg : ¬ (i : Int) < 0 := by omega
  have hlen' : ¬ (row.length : Int) ≠ (n : Int) := by simp [hlen]
  simp only [csvEmailReader.ReadEmail, csvReader.Read, hpos, if_true, hlen', if_false, hneg,
    Int.toNat_ofNat, List.getElem?_eq_getElem hlt]

/-- C21: when the column name stands in the header, also more than once,
`NewCSVEmailReader` takes the index of the last field equal to it, no later field being
equal; and on every row of the length of the header `ReadEmail` returns the field at that
index and keeps it for the rows to come. With the header `["email","name","email"]` the
index is 2, and the row `["first@x.com","Ann","last@y.org"]` is read as `last@y.org`. -/
theorem C21_last_matching_column :
    (∀ (h : List String) (rest : List csvItem) (c : String), c ∈ h →
        ∃ i : Nat, NewCSVEmailReader (csvItem.record h :: rest) c =
            (some { reader := { FieldsPerRecord := h.length, pending := rest },
                    emailColumn := i }, none) ∧
          h[i]? = some c ∧ (∀ j, i < j → h[j]? ≠ some c)) ∧
      (∀ (h row : List String) (rest : List csvItem) (c : String) (r : csvEmailReader),
        NewCSVEmailReader (csvItem.record h :: csvItem.record row :: rest) c = (some r, none) →
        row.length = h.length →
        ∃ (i : Nat) (email : String),
          h[i]? = some c ∧ (∀ j, i < j → h[j]? ≠ some c) ∧ row[i]? = some email ∧
          r.ReadEmail =
            some ((email, none),
              { reader := { FieldsPerRecord := h.length, pending := rest },
                emailColumn := i })) ∧
      (∀ (n i : Nat) (row : List String) (rest : List csvItem), row.length = n → i < n →
        ∃ email : String, row[i]? = some email ∧
          csvEmailReader.ReadEmail
              { reader := { FieldsPerRecord := n, pending := csvItem.record row :: rest },
                emailColumn := i } =
            some ((email, none),
              { reader := { FieldsPerRecord := n, pending := rest }, emailColumn := i })) ∧
      NewCSVEmailReader
          [csvItem.record ["email", "name", "email"],
            csvItem.record ["first@x.com", "Ann", "last@y.org"]] "email" =
        (some { reader := { FieldsPerRecord := 3,
                            pending := [csvItem.record ["first@x.com", "Ann", "last@y.org"]] },
                emailColumn := 2 }, none) ∧
      csvEmailReader.ReadEmail
          { reader := { FieldsPerRecord := 3,
                        pending := [csvItem.record ["first@x.com", "Ann", "last@y.org"]] },
            emailColumn := 2 } =
        some (("last@y.org", none),
          { reader := { FieldsPerRecord := 3, pending := [] }, emailColumn := 2 }) := by
  refine ⟨newCSVEmailReader_present, ?_, csvReadEmail_row, by decide, by decide⟩
  intro h row rest c r hr hlen
  by_cases hc : c ∈ h
  · obtain ⟨i, hi, hget, hlast⟩ := newCSVEmailReader_present h (csvItem.record row :: rest) c hc
    rw [hi] at hr
    simp only [Prod.mk.injEq, Option.some.injEq, and_true] at hr
    subst hr
    have hlt : i < h.length := by
      by_contra hge
      rw [List.getElem?_eq_none (by omega)] at hget
      simp at hget
    obtain ⟨email, hrow, hread⟩ := csvReadEmail_row h.length i row rest hlen hlt
    exact ⟨i, email, hget, hlast, hrow, hread⟩
  · rw [newCSVEmailReader_absent h _ c hc] at hr
    simp at hr

/-- C21 on a file whose header names `email` twice: the reader is built, and the count
over it takes the addresses of the last column, `y.org` twice and `z.net` once, none of
the first column. -/
theorem C21_last_matching_column_witness :
    (∃ (i : Nat) (email : String),
        ["email", "name", "email"][i]? = some "email" ∧
        (∀ j, i < j → ["email", "name", "email"][j]? ≠ some "email") ∧
        ["first@x.com", "Ann", "last@y.org"][i]? = some email ∧
        csvEmailReader.ReadEmail
            { reader := { FieldsPerRecord := 3,
                          pending := [csvItem.record ["first@x.com", "Ann", "last@y.org"]] },
              emailColumn := 2 } =
          some ((email, none),
            { reader := { FieldsPerRecord := ["email", "name", "email"].length, pending := [] },
              emailColumn := i })) ∧
      (CountEmailDomains MapOrder.insertion 4
          { reader := csvEmailReader.toReader
              { reader := { FieldsPerRecord := 3,
                            pending := [csvItem.record ["a@x.com", "Ann", "a@y.org"],
                              csvItem.record ["b@x.com", "Bob", "b@z.net"],
                              csvItem.record ["c@x.com", "Cy", "c@y.org"]] },
                emailColumn := 2 } }).map Outcome.completion =
        some (Completion.returned (some [⟨"y.org", 2⟩, ⟨"z.net", 1⟩]) none) :=
  ⟨C21_last_matching_column.2.1 ["email", "name", "email"] ["first@x.com", "Ann", "last@y.org"]
      [] "email"
      { reader := { FieldsPerRecord := 3,
                    pending := [csvItem.record ["first@x.com", "Ann", "last@y.org"]] },
        emailColumn := 2 } (by decide) (by decide), by decide⟩

end TeamworkGoTests
